import Mathlib

/-!
# Active-set QP solver `ConicAs` (casadi/solvers/conic_as.cpp)

A shallow embedding of `ConicAs::eval` and of the helpers defined next to it.

* `double` values are rationals: every statement is about exact arithmetic.
* A `double*` / `casadi_int*` buffer is a function from the index to the stored value;
  the loop bounds (`nx_`, `na_`, the column ranges of a pattern) are explicit.
* An optional input pointer is an `Option`; `p ? p[i] : 0.` is `optAt p i`.
* `casadi_assert` throws: code that contains one returns an `Option`, `none` being the throw.
* A `for` loop is `forLoop` (or `forLoopM` when the body may throw).
* The work vectors that `eval` carves from `w` are separate buffers, with one exception:
  `gk` is carved with `nx_` slots and `step` directly after it, while `gk` is used with `na_`
  entries, so `gk[nx_ + i]` and `step[i]` are one entry (`gk_at`). A buffer holds 0 where the
  code has not written yet.
* `casadi_qr` and `casadi_qr_solve` are a parameter of `eval`, the `Solver`.
* `eval` is `ConicAs::eval` with `verbose_` off. The diagnostic output is not modelled, except
  that the block of lines 278-289 reads the four bound vectors: `eval_verbose`.
-/

namespace ConicAs

/-- A buffer of doubles. -/
abbrev Vec := ℕ → ℚ

/-- A buffer of `casadi_int`. -/
abbrev IVec := ℕ → ℕ

/-- The loop `for (i=0; i<n; ++i) body`, the state threaded through the iterations. -/
def forLoop {σ : Type} (n : ℕ) (body : ℕ → σ → σ) (s : σ) : σ :=
  match n with
  | 0 => s
  | k + 1 => body k (forLoop k body s)

/-- The loop `for (i=0; i<n; ++i) body` for a body that may throw; a throw ends the loop. -/
def forLoopM {σ : Type} (n : ℕ) (body : ℕ → σ → Option σ) (s : σ) : Option σ :=
  match n with
  | 0 => some s
  | k + 1 => (forLoopM k body s).bind (body k)

/-- The loop `for (k=a; k<b; ++k) body`. -/
def forRange {σ : Type} (a b : ℕ) (body : ℕ → σ → σ) (s : σ) : σ :=
  forLoop (b - a) (fun j => body (a + j)) s

/-- The read `p ? p[i] : 0.` of an optional input. -/
def optAt (p : Option Vec) (i : ℕ) : ℚ :=
  match p with
  | some v => v i
  | none => 0

/-- The statement `casadi_assert(c, msg); rest`: throws unless `c` holds. -/
def casadi_assert {α : Type} (c : Prop) [Decidable c] (rest : Option α) : Option α :=
  if c then rest else none

/-- The value of `std::numeric_limits<double>::min()`, the smallest positive normal double. -/
def DBL_MIN : ℚ := 1 / 2 ^ 1022

/-- The bound inputs `lbx`, `ubx`, `lba`, `uba` of `eval`, each of which may be a null pointer. -/
structure Bounds where
  lbx : Option Vec
  ubx : Option Vec
  lba : Option Vec
  uba : Option Vec

/-- The iterate of `eval`: the work vectors `xk`, `gk`, `lam_xk`, `lam_ak` and the local `fk`,
which holds no value until the first iteration has assigned it. The field `gk` is the work
vector from the pointer `gk` on: `eval` carves `gk` with `nx_` slots and `step` directly after
it (lines 256-257), so its entry `nx_ + i` is `step[i]`. -/
structure Iterate where
  xk : Vec
  gk : Vec
  lam_xk : Vec
  lam_ak : Vec
  fk : Option ℚ

/-- The step of one iteration: `step` (rows `0..nx-1` the primal step, rows `nx..nx+na-1`
the step in `lam_a`), `dlam_x` and `dg`. -/
structure Step where
  step : Vec
  dlam_x : Vec
  dg : Vec

/-- The locals of the ratio test: `tau`, `tau_i`, `upper` (not initialised by the code) and the
first `nx+na` entries of the scratch `w`, where the step length found for each entry is kept. -/
structure Ratio where
  tau : ℚ
  tau_i : ℤ
  upper : Option Bool
  w : Vec

/-- The state before the scan: `tau = 1`, `tau_i = -1`, `casadi_fill(w, nx_+na_, -1.)`. -/
def ratio_init : Ratio :=
  { tau := 1, tau_i := -1, upper := none, w := fun _ => -1 }

/-- The body of the loop over primal variables (lines 479-520), for index `i`. -/
def ratio_x (b : Bounds) (it : Iterate) (d : Step) (i : ℕ) (s : Ratio) : Option Ratio :=
  let lb := optAt b.lbx i
  let ub := optAt b.ubx i
  let after : Option Ratio :=
    if it.lam_xk i = 0 then
      let trial := it.xk i + s.tau * d.step i
      if trial ≥ ub ∧ it.xk i < ub then
        let tau := (ub - it.xk i) / d.step i
        casadi_assert (tau ≥ 0 ∧ tau ≤ 1)
          (some { tau := tau, w := Function.update s.w i tau, tau_i := i, upper := some true })
      else if trial ≤ lb ∧ it.xk i > lb then
        let tau := (lb - it.xk i) / d.step i
        casadi_assert (tau ≥ 0 ∧ tau ≤ 1)
          (some { tau := tau, tau_i := i, upper := some false, w := Function.update s.w i tau })
      else some s
    else
      let trial := it.lam_xk i + s.tau * d.dlam_x i
      if (it.lam_xk i < 0 ∧ trial ≥ 0) ∨ (it.lam_xk i > 0 ∧ trial ≤ 0) then
        let tau := -it.lam_xk i / d.dlam_x i
        casadi_assert (tau ≥ 0 ∧ tau ≤ 1)
          (some { tau := tau, tau_i := i, w := Function.update s.w i tau, upper := s.upper })
      else some s
  after.bind (fun s1 => casadi_assert (s1.tau ≥ 0 ∧ s1.tau ≤ 1) (some s1))

/-- The body of the loop over constraints (lines 524-558), for index `i`. -/
def ratio_a (nx : ℕ) (b : Bounds) (it : Iterate) (d : Step) (i : ℕ) (s : Ratio) :
    Option Ratio :=
  let lb := optAt b.lba i
  let ub := optAt b.uba i
  let after : Option Ratio :=
    if it.lam_ak i = 0 then
      let trial := it.gk i + s.tau * d.dg i
      if trial > ub ∧ it.gk i ≤ ub then
        let tau := (ub - it.gk i) / d.dg i
        casadi_assert (tau ≥ 0 ∧ tau ≤ 1)
          (some { tau := tau, tau_i := (nx : ℤ) + i, upper := some true,
                  w := Function.update s.w (nx + i) tau })
      else if trial < lb ∧ it.gk i ≥ lb then
        let tau := (lb - it.gk i) / d.dg i
        casadi_assert (tau ≥ 0 ∧ tau ≤ 1)
          (some { tau := tau, tau_i := (nx : ℤ) + i, upper := some false,
                  w := Function.update s.w (nx + i) tau })
      else some s
    else
      let trial := it.lam_ak i + s.tau * d.step (nx + i)
      if (it.lam_ak i < 0 ∧ trial ≥ 0) ∨ (it.lam_ak i > 0 ∧ trial ≤ 0) then
        let tau := -it.lam_ak i / d.step (nx + i)
        casadi_assert (tau ≥ 0 ∧ tau ≤ 1)
          (some { tau := tau, tau_i := (nx : ℤ) + i, w := Function.update s.w (nx + i) tau,
                  upper := s.upper })
      else some s
  after.bind (fun s1 => casadi_assert (s1.tau ≥ 0 ∧ s1.tau ≤ 1) (some s1))

/-- The ratio test of one iteration (lines 470-558): the scan of the primal variables
followed by the scan of the constraints. `none` when a `casadi_assert` throws. -/
def ratio_test (nx na : ℕ) (b : Bounds) (it : Iterate) (d : Step) : Option Ratio :=
  (forLoopM nx (ratio_x b it d) ratio_init).bind (forLoopM na (ratio_a nx b it d))

/-! ## Sparse patterns and the runtime helpers `eval` calls -/

/-- A sparsity pattern in compressed column storage, as the `casadi_int*` that the helpers
receive: `sp[0]`, `sp[1]`, `colind = sp+2`, `row = sp+2+ncol+1`. -/
structure Sparsity where
  nrow : ℕ
  ncol : ℕ
  colind : IVec
  row : IVec

/-- The pointer `p + k`. -/
def shift (p : Vec) (k : ℕ) : Vec := fun i => p (k + i)

/-- Modelled from the spec: `casadi_copy(x, n, y)` of the CasADi runtime (dense vector copy),
which is not part of this source file: `y[i] = x[i]` for `i < n`, and `y[i] = 0` when `x` is a
null pointer. -/
def casadi_copy (x : Option Vec) (n : ℕ) (y : Vec) : Vec :=
  forLoop n (fun i y1 => Function.update y1 i (optAt x i)) y

/-- Modelled from the spec: `casadi_fill(x, n, alpha)` of the CasADi runtime (dense vector
fill): `x[i] = alpha` for `i < n`. -/
def casadi_fill (x : Vec) (n : ℕ) (alpha : ℚ) : Vec :=
  forLoop n (fun i x1 => Function.update x1 i alpha) x

/-- Modelled from the spec: `casadi_scal(n, alpha, x)` of the CasADi runtime (dense vector
scale): `x[i] *= alpha` for `i < n`. -/
def casadi_scal (n : ℕ) (alpha : ℚ) (x : Vec) : Vec :=
  forLoop n (fun i x1 => Function.update x1 i (x1 i * alpha)) x

/-- Modelled from the spec: `casadi_axpy(n, alpha, x, y)` of the CasADi runtime (dense
vector axpy): `y[i] += alpha*x[i]` for `i < n`. -/
def casadi_axpy (n : ℕ) (alpha : ℚ) (x y : Vec) : Vec :=
  forLoop n (fun i y1 => Function.update y1 i (y1 i + alpha * x i)) y

/-- Modelled from the spec: `casadi_dot(n, x, y)` of the CasADi runtime (dense vector dot):
the sum of `x[i]*y[i]` for `i < n`. -/
def casadi_dot (n : ℕ) (x y : Vec) : ℚ :=
  forLoop n (fun i r => r + x i * y i) 0

/-- Modelled from the spec: `casadi_mv(x, sp_x, y, z, tr)` of the CasADi runtime (sparse
matrix-vector multiply): `z += A*y` when `tr` is 0 and `z += A'*y` otherwise, `A` being the
matrix with pattern `sp_x` and nonzeros `x`. -/
def casadi_mv (x : Vec) (sp_x : Sparsity) (y z : Vec) (tr : Bool) : Vec :=
  forLoop sp_x.ncol (fun c z1 =>
    forRange (sp_x.colind c) (sp_x.colind (c + 1)) (fun el z2 =>
      if tr then Function.update z2 c (z2 c + x el * y (sp_x.row el))
      else Function.update z2 (sp_x.row el) (z2 (sp_x.row el) + x el * y c)) z1) z

/-- Modelled from the spec: `casadi_bilin(A, sp_A, x, y)` of the CasADi runtime (bilinear
form): the sum over the stored entries of `x[row]*A[el]*y[col]`. -/
def casadi_bilin (A : Vec) (sp_A : Sparsity) (x y : Vec) : ℚ :=
  forLoop sp_A.ncol (fun c r1 =>
    forRange (sp_A.colind c) (sp_A.colind (c + 1)) (fun el r2 =>
      r2 + x (sp_A.row el) * A el * y c) r1) 0

/-- Modelled from the spec: `casadi_trans(x, sp_x, y, sp_y, tmp)` of the CasADi runtime
(sparse transpose): `tmp` starts as the column offsets of `sp_y`, and nonzero `k` of `x` goes
to the next free slot of column `row_x[k]` of `y`. The result is `y`. -/
def casadi_trans (x : Vec) (sp_x : Sparsity) (y : Vec) (sp_y : Sparsity) : Vec :=
  (forLoop (sp_x.colind sp_x.ncol) (fun k (st : Vec × IVec) =>
    (Function.update st.1 (st.2 (sp_x.row k)) (x k),
     Function.update st.2 (sp_x.row k) (st.2 (sp_x.row k) + 1))) (y, sp_y.colind)).1

/-- Modelled from the spec: `casadi_project(x, sp_x, y, sp_y, w)` of the CasADi runtime
(projection on another pattern): column by column, the scratch `w` is zeroed at the rows of
`sp_y`, receives the entries of `x`, and is read back at the rows of `sp_y`. The result is
`y`. -/
def casadi_project (x : Vec) (sp_x : Sparsity) (y : Vec) (sp_y : Sparsity) (w : Vec) : Vec :=
  (forLoop sp_x.ncol (fun c (st : Vec × Vec) =>
    let w1 := forRange (sp_y.colind c) (sp_y.colind (c + 1))
      (fun el w0 => Function.update w0 (sp_y.row el) 0) st.2
    let w2 := forRange (sp_x.colind c) (sp_x.colind (c + 1))
      (fun el w0 => Function.update w0 (sp_x.row el) (x el)) w1
    (forRange (sp_y.colind c) (sp_y.colind (c + 1))
      (fun el y0 => Function.update y0 el (w2 (sp_y.row el))) st.1, w2)) (y, w)).1

/-- The locals of `casadi_set_sub` inside a column: the target `x`, the number of values
already consumed from `y`, and whether the inner loop is still running (its condition
`(r=row[k])<rend` ends it at the first row outside the block). -/
structure SubState where
  x : Vec
  used : ℕ
  run : Bool

/-- The function `casadi_set_sub(y, x, sp_x, rbeg, rend, cbeg, cend)` (lines 125-140). -/
def casadi_set_sub (y : Vec) (x : Vec) (sp_x : Sparsity) (rbeg rend cbeg cend : ℕ) : Vec :=
  (forRange cbeg cend (fun c (st : Vec × ℕ) =>
    let fin := forRange (sp_x.colind c) (sp_x.colind (c + 1)) (fun k (s : SubState) =>
      if s.run then
        if sp_x.row k < rend then
          if sp_x.row k ≥ rbeg then { x := Function.update s.x k (y s.used), used := s.used + 1, run := true }
          else s
        else { s with run := false }
      else s) { x := st.1, used := st.2, run := true }
    (fin.x, fin.used)) (x, 0)).1

/-! ## `ConicAs::eval` -/

/-- The members of a `ConicAs` instance that `eval` reads: the sizes, the patterns built by
`init`, and `max_iter_`. -/
structure Conic where
  nx : ℕ
  na : ℕ
  H_ : Sparsity
  A_ : Sparsity
  AT_ : Sparsity
  kkt_ : Sparsity
  kktd_ : Sparsity
  max_iter : ℤ

/-- The inputs `arg[...]` of `eval`. The bounds and the initial guess may be null pointers. -/
structure Args where
  h : Vec
  g : Vec
  a : Vec
  bnd : Bounds
  x0 : Option Vec
  lam_x0 : Option Vec
  lam_a0 : Option Vec

/-- The outputs `res[...]` of `eval`; `f` holds no value when `fk` was never assigned. -/
structure Result where
  x : Vec
  f : Option ℚ
  lam_x : Vec
  lam_a : Vec

/-- The numeric factorization `casadi_qr` followed by `casadi_qr_solve(step, 1, 1, ...)`, which
belong to the CasADi runtime and not to this source file: from the nonzeros of `kktd` and the
right-hand side held in `step`, the content of `step` after the solve. -/
abbrev Solver := Vec → Vec → Vec

/-- A work vector before its first write. -/
def fresh : Vec := fun _ => 0

/-- The assembly of the KKT matrix (lines 266-272). -/
def assemble (C : Conic) (A : Args) : Vec :=
  let w := casadi_trans A.a C.A_ fresh C.AT_
  let kkt1 := casadi_set_sub A.h fresh C.kkt_ 0 C.nx 0 C.nx
  let kkt2 := casadi_set_sub A.a kkt1 C.kkt_ C.nx (C.nx + C.na) 0 C.nx
  casadi_set_sub w kkt2 C.kkt_ 0 C.nx C.nx (C.nx + C.na)

/-- The evaluation of `gk` (lines 274-276 and 591-593): `casadi_fill` then `casadi_mv`. -/
def calc_g (C : Conic) (A : Args) (xk gk : Vec) : Vec :=
  casadi_mv A.a C.A_ xk (casadi_fill gk C.na 0) false

/-- The body of the first seeding loop (lines 292-305), for variable `i`. -/
def seed_x (b : Bounds) (xk : Vec) (i : ℕ) (lam_xk : Vec) : Vec :=
  let lb := optAt b.lbx i
  let ub := optAt b.ubx i
  if lb ≠ ub then Function.update lam_xk i 0
  else if xk i ≤ lb then Function.update lam_xk i (min (lam_xk i) (-DBL_MIN))
  else Function.update lam_xk i (max (lam_xk i) DBL_MIN)

/-- The body of the second seeding loop (lines 308-321), for constraint `i`. -/
def seed_a (b : Bounds) (gk : Vec) (i : ℕ) (lam_ak : Vec) : Vec :=
  let lb := optAt b.lba i
  let ub := optAt b.uba i
  if lb ≠ ub then Function.update lam_ak i 0
  else if gk i ≤ ub then Function.update lam_ak i (min (lam_ak i) (-DBL_MIN))
  else Function.update lam_ak i (max (lam_ak i) DBL_MIN)

/-- The part of `eval` before the main loop (lines 261-321): the initial guess is copied,
`gk` is evaluated and the initial active set is determined. -/
def seed (C : Conic) (A : Args) : Iterate :=
  let xk := casadi_copy A.x0 C.nx fresh
  let lam_xk := casadi_copy A.lam_x0 C.nx fresh
  let lam_ak := casadi_copy A.lam_a0 C.na fresh
  let gk := calc_g C A xk fresh
  { xk := xk, gk := gk,
    lam_xk := forLoop C.nx (seed_x A.bnd xk) lam_xk,
    lam_ak := forLoop C.na (seed_a A.bnd gk) lam_ak,
    fk := none }

/-- The modification of `kktd` for the active set (lines 371-389), applied to the projected
values `kktd`. -/
def modify_kktd (C : Conic) (lam_xk lam_ak : Vec) (kktd : Vec) : Vec :=
  let kktd1 := forLoop C.nx (fun c kd =>
    if lam_xk c ≠ 0 then
      forRange (C.kktd_.colind c) (C.kktd_.colind (c + 1)) (fun k kd1 =>
        Function.update kd1 k (if C.kktd_.row k = c then 1 else 0)) kd
    else kd) kktd
  forLoop C.na (fun c kd =>
    if lam_ak c = 0 then
      forRange (C.kktd_.colind (C.nx + c)) (C.kktd_.colind (C.nx + c + 1)) (fun k kd1 =>
        Function.update kd1 k (if C.kktd_.row k = C.nx + c then -1 else 0)) kd
    else kd) kktd1

/-- The matrix that is factorized (lines 364-389): `kkt` projected on the padded pattern,
then modified for the active set. -/
def calc_kktd (C : Conic) (kkt : Vec) (it : Iterate) : Vec :=
  modify_kktd C it.lam_xk it.lam_ak (casadi_project kkt C.kkt_ fresh C.kktd_ fresh)

/-- The entry `gk[i]` while `step` holds `st`: `gk` has `nx_` slots in the work vector and
`step` follows it (lines 256-257), so `gk[i]` with `i ≥ nx_` is `step[i - nx_]`. -/
def gk_at (nx : ℕ) (gk st : Vec) (i : ℕ) : ℚ :=
  if i < nx then gk i else st (i - nx)

/-- The right-hand side of the KKT solve (lines 394-427), the content of `step` before
`casadi_qr_solve`. The buffer `step` starts with what the work vector holds after the `nx_`
slots of `gk`, and the copy `casadi_copy(gk, na_, step + nx_)` of line 398 reads `gk[i]`
while it writes `step[nx_ + i]`. -/
def calc_rhs (C : Conic) (A : Args) (it : Iterate) : Vec :=
  let s0 := shift it.gk C.nx
  let s1 := casadi_copy (some A.g) C.nx s0
  let s2 := casadi_mv A.h C.H_ it.xk s1 false
  let s3 := casadi_mv A.a C.A_ it.lam_ak s2 true
  let s4 := forLoop C.na (fun i st =>
    Function.update st (C.nx + i) (gk_at C.nx it.gk st i)) s3
  let s5 := forLoop C.nx (fun i st =>
    if it.lam_xk i ≠ 0 then
      let t1 := Function.update st i (it.xk i)
      let t2 := if A.bnd.lbx.isSome ∧ it.lam_xk i < 0 then
        Function.update t1 i (t1 i - optAt A.bnd.lbx i) else t1
      if A.bnd.ubx.isSome ∧ it.lam_xk i > 0 then
        Function.update t2 i (t2 i - optAt A.bnd.ubx i) else t2
    else st) s4
  let s6 := forLoop C.na (fun i st =>
    if it.lam_ak i = 0 then Function.update st (C.nx + i) 0
    else if A.bnd.lba.isSome ∧ it.lam_ak i < 0 then
      Function.update st (C.nx + i) (st (C.nx + i) - optAt A.bnd.lba i)
    else if A.bnd.uba.isSome ∧ it.lam_ak i > 0 then
      Function.update st (C.nx + i) (st (C.nx + i) - optAt A.bnd.uba i)
    else st) s5
  casadi_scal (C.nx + C.na) (-1) s6

/-- The steps derived from the solution `step` of the KKT solve (lines 433-443): `dlam_x` and
`dg`. -/
def calc_step (C : Conic) (A : Args) (step : Vec) : Step :=
  let d1 := casadi_fill fresh C.nx 0
  let d2 := casadi_mv A.h C.H_ step d1 false
  let d3 := casadi_mv A.a C.A_ (shift step C.nx) d2 true
  { step := step,
    dlam_x := casadi_scal C.nx (-1) d3,
    dg := casadi_mv A.a C.A_ step (casadi_fill fresh C.na 0) false }

/-- The update of the iterate with the step length `tau` (lines 584-596). -/
def take_step (C : Conic) (A : Args) (it : Iterate) (d : Step) (tau : ℚ) : Iterate :=
  let xk := casadi_axpy C.nx tau d.step it.xk
  { xk := xk,
    lam_ak := casadi_axpy C.na tau (shift d.step C.nx) it.lam_ak,
    lam_xk := casadi_axpy C.nx tau d.dlam_x it.lam_xk,
    gk := calc_g C A xk it.gk,
    fk := some (casadi_bilin A.h C.H_ xk xk / 2 + casadi_dot C.nx xk A.g) }

/-- The step of one iteration of the main loop, before the ratio test (lines 364-443). -/
def newton_step (S : Solver) (C : Conic) (A : Args) (kkt : Vec) (it : Iterate) : Step :=
  calc_step C A (S (calc_kktd C kkt it) (calc_rhs C A it))

/-- One iteration of the main loop (lines 323-600); `none` when the ratio test throws. After
the solve the entries of `gk` from `nx_` on are those of `step`: the ratio test and the
update run on the iterate with `gk` read through `gk_at`. -/
def iteration (S : Solver) (C : Conic) (A : Args) (kkt : Vec) (it : Iterate) :
    Option Iterate :=
  let d := newton_step S C A kkt it
  let it1 : Iterate := { it with gk := gk_at C.nx it.gk d.step }
  (ratio_test C.nx C.na A.bnd it1 d).map (fun r => take_step C A it1 d r.tau)

/-- The main loop `for (iter=0; iter<max_iter_; ++iter)`, for `n` iterations. -/
def main_loop (S : Solver) (C : Conic) (A : Args) (kkt : Vec) (n : ℕ) (it : Iterate) :
    Option Iterate :=
  forLoopM n (fun _ it1 => iteration S C A kkt it1) it

/-- The function `ConicAs::eval` (lines 218-611) with `verbose_` off: `none` when it throws,
the outputs when it returns 0. -/
def eval (S : Solver) (C : Conic) (A : Args) : Option Result :=
  (main_loop S C A (assemble C A) C.max_iter.toNat (seed C A)).map (fun it =>
    { x := casadi_copy (some it.xk) C.nx fresh,
      f := it.fk,
      lam_x := casadi_copy (some it.lam_xk) C.nx fresh,
      lam_a := casadi_copy (some it.lam_ak) C.na fresh })

/-- The function `print_vector(x, n)` (lines 174-176) on an input of `eval`: it builds
`vector<double>(x, x+n)` and so reads the `n` entries `x[0..n-1]`. Through a null pointer
there is no entry to read: the call has no result (`none`) unless `n` is 0. -/
def print_vector (x : Option Vec) (n : ℕ) : Option Unit :=
  if x.isNone ∧ 0 < n then none else some ()

/-- The diagnostic block of lines 278-289, entered when `verbose_` is set: `lbx`, `ubx`, `lba`
and `uba` are passed to `print_vector` as they came, without the test for a null pointer
that every other read of them has. -/
def print_bounds (C : Conic) (A : Args) : Option Unit :=
  (print_vector A.bnd.lbx C.nx).bind (fun _ =>
    (print_vector A.bnd.ubx C.nx).bind (fun _ =>
      (print_vector A.bnd.lba C.na).bind (fun _ => print_vector A.bnd.uba C.na)))

/-- The function `ConicAs::eval` for either value of `verbose_`: with `verbose_` set the
block of lines 278-289 runs before the active set is seeded; the other diagnostic blocks
(lines 326, 420, 445, 560) print work vectors and local values and change no result. -/
def eval_verbose (verbose : Bool) (S : Solver) (C : Conic) (A : Args) : Option Result :=
  if verbose then (print_bounds C A).bind (fun _ => eval S C A) else eval S C A


/-! ## Auxiliary definitions for the statements -/

/-- The value assigned to `tau` at variable `i` of the scan from the state `s`, when one of
the three branches (upper bound crossed, lower bound crossed, sign change) is taken. -/
def new_tau_x (b : Bounds) (it : Iterate) (d : Step) (i : ℕ) (s : Ratio) : Option ℚ :=
  if it.lam_xk i = 0 then
    if it.xk i + s.tau * d.step i ≥ optAt b.ubx i ∧ it.xk i < optAt b.ubx i then
      some ((optAt b.ubx i - it.xk i) / d.step i)
    else if it.xk i + s.tau * d.step i ≤ optAt b.lbx i ∧ it.xk i > optAt b.lbx i then
      some ((optAt b.lbx i - it.xk i) / d.step i)
    else none
  else
    if (it.lam_xk i < 0 ∧ it.lam_xk i + s.tau * d.dlam_x i ≥ 0) ∨
        (it.lam_xk i > 0 ∧ it.lam_xk i + s.tau * d.dlam_x i ≤ 0) then
      some (-it.lam_xk i / d.dlam_x i)
    else none

/-- The value assigned to `tau` at constraint `i` of the scan from the state `s`, when one of
the three branches is taken. -/
def new_tau_a (nx : ℕ) (b : Bounds) (it : Iterate) (d : Step) (i : ℕ) (s : Ratio) : Option ℚ :=
  if it.lam_ak i = 0 then
    if it.gk i + s.tau * d.dg i > optAt b.uba i ∧ it.gk i ≤ optAt b.uba i then
      some ((optAt b.uba i - it.gk i) / d.dg i)
    else if it.gk i + s.tau * d.dg i < optAt b.lba i ∧ it.gk i ≥ optAt b.lba i then
      some ((optAt b.lba i - it.gk i) / d.dg i)
    else none
  else
    if (it.lam_ak i < 0 ∧ it.lam_ak i + s.tau * d.step (nx + i) ≥ 0) ∨
        (it.lam_ak i > 0 ∧ it.lam_ak i + s.tau * d.step (nx + i) ≤ 0) then
      some (-it.lam_ak i / d.step (nx + i))
    else none

/-- The facts that hold after the scan has handled the entries `0, ..., n-1`. -/
structure ScanInv (n : ℕ) (s : Ratio) : Prop where
  tau_nonneg : 0 ≤ s.tau
  tau_le_one : s.tau ≤ 1
  recorded : ∀ k, s.w k = -1 ∨ (k < n ∧ s.tau ≤ s.w k ∧ s.w k ≤ 1 ∧ (k : ℤ) ≤ s.tau_i)
  last : (s.tau_i = -1 ∧ s.tau = 1 ∧ ∀ k, s.w k = -1) ∨ (∃ k, k < n ∧ s.tau_i = k ∧ s.w k = s.tau)


/-! ## Concrete inputs -/

/-- The buffer that holds the listed doubles. -/
def ofList (l : List ℚ) : Vec := fun i => l.getD i 0

/-- The buffer that holds the listed integers. -/
def iofList (l : List ℕ) : IVec := fun i => l.getD i 0

/-- A scan in which three entries block in turn: variable 0 (inactive, upper bound 1/2) at
1/2, variable 1 (active, multiplier -1 rising by 4) at 1/4, and the constraint (inactive,
upper bound 1, `dg = 8`) at 1/8. -/
def scanBounds : Bounds :=
  { lbx := some (ofList [-1, -1]), ubx := some (ofList [1 / 2, 3]),
    lba := some (ofList [-1]), uba := some (ofList [1]) }

/-- The iterate of the scan `scanBounds`. -/
def scanIt : Iterate :=
  { xk := ofList [0, 0], gk := ofList [0], lam_xk := ofList [0, -1], lam_ak := ofList [0],
    fk := none }

/-- The step of the scan `scanBounds`. -/
def scanStep : Step :=
  { step := ofList [1, 0, 0], dlam_x := ofList [0, 4], dg := ofList [8] }

/-- The result of the ratio test on `scanBounds`, `scanIt`, `scanStep`. -/
def scanResult : Ratio :=
  { tau := 1 / 8, tau_i := 2, upper := some true,
    w := Function.update (Function.update (Function.update (fun _ => -1) 0 (1 / 2)) 1 (1 / 4))
      2 (1 / 8) }

/-- A state of the scan with `tau = 5`, which no scan reaches; from it variable 0 of
`farBounds`, `farIt`, `farStep` computes `tau = 2`. -/
def farState : Ratio := { tau := 5, tau_i := -1, upper := none, w := fun _ => -1 }

/-- Bounds `-1 ≤ x ≤ 2` on one variable. -/
def farBounds : Bounds :=
  { lbx := some (ofList [-1]), ubx := some (ofList [2]), lba := none, uba := none }

/-- One inactive variable at 0. -/
def farIt : Iterate :=
  { xk := ofList [0], gk := ofList [], lam_xk := ofList [0], lam_ak := ofList [], fk := none }

/-- The step `dx = 1`. -/
def farStep : Step := { step := ofList [1], dlam_x := ofList [0], dg := ofList [] }

/-- Two inactive variables at 0 with upper bound 1/2 and the step `dx = (1, 1)`: both reach
the bound at the step length 1/2. -/
def tieBounds : Bounds :=
  { lbx := some (ofList [-1, -1]), ubx := some (ofList [1 / 2, 1 / 2]), lba := none, uba := none }

/-- The iterate of the scan `tieBounds`. -/
def tieIt : Iterate :=
  { xk := ofList [0, 0], gk := ofList [], lam_xk := ofList [0, 0], lam_ak := ofList [],
    fk := none }

/-- The step of the scan `tieBounds`. -/
def tieStep : Step := { step := ofList [1, 1], dlam_x := ofList [0, 0], dg := ofList [] }

/-- The result of the ratio test on `tieBounds`, `tieIt`, `tieStep`. -/
def tieResult : Ratio :=
  { tau := 1 / 2, tau_i := 1, upper := some true,
    w := Function.update (Function.update (fun _ => -1) 0 (1 / 2)) 1 (1 / 2) }

/-- The pattern of a dense 1-by-1 matrix. -/
def sp11 : Sparsity := { nrow := 1, ncol := 1, colind := iofList [0, 1], row := iofList [0] }

/-- A solver instance with one variable and one constraint, `H` and `A` dense: the KKT
pattern has the entries (0,0), (1,0), (0,1) and the padded pattern has (1,1) as well. -/
def oneByOne (max_iter : ℤ) : Conic :=
  { nx := 1, na := 1, H_ := sp11, A_ := sp11, AT_ := sp11,
    kkt_ := { nrow := 2, ncol := 2, colind := iofList [0, 2, 3], row := iofList [0, 1, 0] },
    kktd_ := { nrow := 2, ncol := 2, colind := iofList [0, 2, 4], row := iofList [0, 1, 0, 1] },
    max_iter := max_iter }

/-- The problem `min x^2/2 + g*x` subject to `lbx ≤ x ≤ ubx`, `lba ≤ x ≤ uba`, from the
initial guess `x0` with zero multipliers. -/
def qp1 (g lbx ubx lba uba x0 : ℚ) : Args :=
  { h := ofList [1], g := ofList [g], a := ofList [1],
    bnd := { lbx := some (ofList [lbx]), ubx := some (ofList [ubx]),
             lba := some (ofList [lba]), uba := some (ofList [uba]) },
    x0 := some (ofList [x0]), lam_x0 := none, lam_a0 := none }

/-- Modelled from the spec: the KKT solve (`casadi_qr` and `casadi_qr_solve` with `tr = 1`,
of the CasADi runtime) for the padded pattern of `oneByOne`, in exact arithmetic: the
solution `s` of the transposed system `K' s = rhs`, where column `c` of `K` gives equation
`c`, by Cramer's rule. The nonzeros are `K = [[k0, k2], [k1, k3]]`. -/
def solve2 : Solver := fun kktd rhs =>
  ofList [(rhs 0 * kktd 3 - kktd 1 * rhs 1) / (kktd 0 * kktd 3 - kktd 1 * kktd 2),
          (kktd 0 * rhs 1 - kktd 2 * rhs 0) / (kktd 0 * kktd 3 - kktd 1 * kktd 2)]

/-- The step `s` solves the transposed system of the matrix with nonzeros `kktd` on the
padded pattern: `K' s = rhs` on the rows `0..nx+na-1`. -/
def kkt_solved (C : Conic) (kktd rhs s : Vec) : Prop :=
  ∀ i, i < C.nx + C.na → casadi_mv kktd C.kktd_ s fresh true i = rhs i

instance (C : Conic) (kktd rhs s : Vec) : Decidable (kkt_solved C kktd rhs s) := by
  unfold kkt_solved
  infer_instance

/-- A problem on `oneByOne` whose variable has `lbx = 1 > ubx = 0`; the constraint
`-10 ≤ x ≤ 10` is inactive and the initial guess is `x0 = 1/2`. -/
def crossedArgs : Args := qp1 0 1 0 (-10) 10 (1 / 2)

/-- The problem `min x^2/2 - 2x`, `0 ≤ x ≤ 1`, started at the upper bound `x0 = 1`. -/
def atUpperArgs : Args := qp1 (-2) 0 1 (-10) 10 1

/-- The problem `min x^2/2 - 2x`, `-1 ≤ x ≤ 1`, started at `x0 = 0`. -/
def hitUpperArgs : Args := qp1 (-2) (-1) 1 (-10) 10 0

/-- The problem `min x^2/2 - 2x`, `-10 ≤ x ≤ 10`, started at `x0 = 0`: no bound is reached
by the full step to `x = 2`. -/
def freeArgs : Args := qp1 (-2) (-10) 10 (-10) 10 0

/-- The problem `min x^2/2 - 2x`, `-10 ≤ x ≤ 10`, with the equality constraint `x = 1`
(`lba = uba = 1`), started at `x0 = 0`. -/
def equalityArgs : Args := qp1 (-2) (-10) 10 1 1 0

/-- A solver instance with two variables and one constraint, `H` diagonal and `A = [a0, a1]`
dense, for one iteration. -/
def twoVarsOneCon : Conic :=
  { nx := 2, na := 1,
    H_ := { nrow := 2, ncol := 2, colind := iofList [0, 1, 2], row := iofList [0, 1] },
    A_ := { nrow := 1, ncol := 2, colind := iofList [0, 1, 2], row := iofList [0, 0] },
    AT_ := { nrow := 2, ncol := 1, colind := iofList [0, 2], row := iofList [0, 1] },
    kkt_ := { nrow := 3, ncol := 3, colind := iofList [0, 2, 4, 6],
              row := iofList [0, 2, 1, 2, 0, 1] },
    kktd_ := { nrow := 3, ncol := 3, colind := iofList [0, 2, 4, 7],
               row := iofList [0, 2, 1, 2, 0, 1, 2] },
    max_iter := 1 }

/-- The problem `min (x0^2 + x1^2)/2 - 2 x0 - 2 x1` with `A = [1, 1]`, `lba = uba = [1]` and
the bounds `-10 ≤ x ≤ 10`, started at zero. -/
def sumArgs : Args :=
  { h := ofList [1, 1], g := ofList [-2, -2], a := ofList [1, 1],
    bnd := { lbx := some (ofList [-10, -10]), ubx := some (ofList [10, 10]),
             lba := some (ofList [1]), uba := some (ofList [1]) },
    x0 := none, lam_x0 := none, lam_a0 := none }

/-- The solution of the KKT system of the first iteration on `twoVarsOneCon`, `sumArgs`. -/
def sumStep : Vec := ofList [1 / 2, 1 / 2, 3 / 2 + DBL_MIN]

/-- An iterate with an active variable and an inactive constraint. -/
def activeIt : Iterate :=
  { xk := ofList [0], gk := ofList [0], lam_xk := ofList [3], lam_ak := ofList [0], fk := none }

/-- The divisor of the step length computed at variable `i`: the primal step for an inactive
variable, the step of the multiplier for an active one. -/
def divisor_x (it : Iterate) (d : Step) (i : ℕ) : ℚ :=
  if it.lam_xk i = 0 then d.step i else d.dlam_x i

/-- The divisor of the step length computed at constraint `i`: `dg` for an inactive
constraint, the step of the multiplier for an active one. -/
def divisor_a (nx : ℕ) (it : Iterate) (d : Step) (i : ℕ) : ℚ :=
  if it.lam_ak i = 0 then d.dg i else d.step (nx + i)

/-- A problem on `oneByOne` with the bounds `0 ≤ x ≤ 1`, `-1 ≤ Ax ≤ 1` and the nonzero
initial multipliers `lam_x0 = 3`, `lam_a0 = -2`. -/
def guessArgs : Args :=
  { h := ofList [1], g := ofList [0], a := ofList [1],
    bnd := { lbx := some (ofList [0]), ubx := some (ofList [1]),
             lba := some (ofList [-1]), uba := some (ofList [1]) },
    x0 := none, lam_x0 := some (ofList [3]), lam_a0 := some (ofList [-2]) }

/-- What the scratch `w` records for the active entries during the scan: a recorded value
(other than -1) of an active variable or constraint is its `-lam/dlam`, with `dlam ≠ 0`. -/
def DualRecorded (nx : ℕ) (it : Iterate) (d : Step) (w : Vec) : Prop :=
  (∀ i, i < nx → it.lam_xk i ≠ 0 → w i ≠ -1 →
    d.dlam_x i ≠ 0 ∧ w i = -it.lam_xk i / d.dlam_x i) ∧
  (∀ j, it.lam_ak j ≠ 0 → w (nx + j) ≠ -1 →
    d.step (nx + j) ≠ 0 ∧ w (nx + j) = -it.lam_ak j / d.step (nx + j))

/-- The gradient of the Lagrangian as `eval` evaluates it into `step` (lines 395-397): `g`,
plus `H x`, plus `A' lam_a`. -/
def lagr_grad (C : Conic) (A : Args) (it : Iterate) : Vec :=
  casadi_mv A.a C.A_ it.lam_ak
    (casadi_mv A.h C.H_ it.xk (casadi_copy (some A.g) C.nx (shift it.gk C.nx)) false) true

/-- The residual that the correction for active simple bounds stores for variable `i`, from
the gradient entry `t`. -/
def resid_x (b : Bounds) (it : Iterate) (i : ℕ) (t : ℚ) : ℚ :=
  if it.lam_xk i = 0 then t
  else if it.lam_xk i < 0 then it.xk i - optAt b.lbx i
  else it.xk i - optAt b.ubx i

/-- The residual that the correction for inactive constraints stores for constraint `i`,
from the constraint value `t`. -/
def resid_a (b : Bounds) (it : Iterate) (i : ℕ) (t : ℚ) : ℚ :=
  if it.lam_ak i = 0 then 0
  else if it.lam_ak i < 0 then t - optAt b.lba i
  else t - optAt b.uba i

/-- The iterate of a scan whose final step length is the sign change of the multiplier of
the active variable: `lam_x = -1`, and the constraint inactive at 0. -/
def dualIt : Iterate :=
  { xk := ofList [0], gk := ofList [0], lam_xk := ofList [-1], lam_ak := ofList [0],
    fk := none }

/-- The step of the scan `dualIt`: the multiplier rises by 4. -/
def dualStep : Step := { step := ofList [0, 0], dlam_x := ofList [4], dg := ofList [0] }

/-- The result of the ratio test on `dualIt`, `dualStep` with the bounds of `freeArgs`. -/
def dualResult : Ratio :=
  { tau := 1 / 4, tau_i := 0, upper := none, w := Function.update (fun _ => -1) 0 (1 / 4) }

/-- The inputs `A` with the bound inputs replaced by `b`. -/
def withBounds (A : Args) (b : Bounds) : Args := { A with bnd := b }

/-- Two sets of bound inputs read the same at every variable and every constraint. -/
def BoundsAgree (nx na : ℕ) (b1 b2 : Bounds) : Prop :=
  (∀ i, i < nx → optAt b1.lbx i = optAt b2.lbx i ∧ optAt b1.ubx i = optAt b2.ubx i) ∧
  (∀ j, j < na → optAt b1.lba j = optAt b2.lba j ∧ optAt b1.uba j = optAt b2.uba j)

/-- The outputs of `eval` on `oneByOne` with `max_iter = 1` for `freeArgs`. -/
def freeResult : Result :=
  (eval solve2 (oneByOne 1) freeArgs).getD { x := fresh, f := none, lam_x := fresh, lam_a := fresh }

/-- A solver instance with two variables and no constraint (`A` absent), `H` diagonal. -/
def twoVars (max_iter : ℤ) : Conic :=
  { nx := 2, na := 0,
    H_ := { nrow := 2, ncol := 2, colind := iofList [0, 1, 2], row := iofList [0, 1] },
    A_ := { nrow := 0, ncol := 2, colind := iofList [0, 0, 0], row := iofList [] },
    AT_ := { nrow := 2, ncol := 0, colind := iofList [0], row := iofList [] },
    kkt_ := { nrow := 2, ncol := 2, colind := iofList [0, 1, 2], row := iofList [0, 1] },
    kktd_ := { nrow := 2, ncol := 2, colind := iofList [0, 1, 2], row := iofList [0, 1] },
    max_iter := max_iter }

/-- The problem `min (t/2)(x0^2 + x1^2) - 2 x0 - 2 x1` with the bounds `-10 ≤ x ≤ 10`, which
never block, and a zero initial guess; its minimiser is `x = (2/t, 2/t)`. -/
def bowlArgs (t : ℚ) : Args :=
  { h := ofList [t, t], g := ofList [-2, -2], a := ofList [],
    bnd := { lbx := some (ofList [-10, -10]), ubx := some (ofList [10, 10]),
             lba := none, uba := none },
    x0 := none, lam_x0 := none, lam_a0 := none }

/-- Modelled from the spec: the KKT solve (`casadi_qr` and `casadi_qr_solve`, of the CasADi
runtime) for the diagonal padded pattern of `twoVars`, in exact arithmetic. -/
def solveDiag : Solver := fun kktd rhs => ofList [rhs 0 / kktd 0, rhs 1 / kktd 1]

/-! ## The layout of the work vector -/

/-- The sizes that fix the layout of the work vector: `nx_`, `na_` and the numbers of
nonzeros of `kkt_`, `kktd_`, `sp_v_`, `sp_r_`. -/
structure Sizes where
  nx : ℕ
  na : ℕ
  kkt_nnz : ℕ
  kktd_nnz : ℕ
  v_nnz : ℕ
  r_nnz : ℕ

/-- The offsets in `w` of the buffers that `eval` carves (lines 244-259), and the offset `w`
left after the last of them. -/
structure Layout where
  kkt : ℕ
  kktd : ℕ
  xk : ℕ
  lam_xk : ℕ
  lam_ak : ℕ
  v : ℕ
  r : ℕ
  beta : ℕ
  alpha_x : ℕ
  alpha_a : ℕ
  gk : ℕ
  step : ℕ
  dlam_x : ℕ
  dg : ℕ
  w : ℕ

/-- The carving of the work vector in `eval` (lines 246-259): each buffer starts at the
current `w`, which then advances. -/
def carve (z : Sizes) : Layout :=
  let kkt := 0
  let kktd := kkt + z.kkt_nnz
  let xk := kktd + z.kktd_nnz
  let lam_xk := xk + z.nx
  let lam_ak := lam_xk + z.nx
  let v := lam_ak + z.na
  let r := v + z.v_nnz
  let beta := r + z.r_nnz
  let alpha_x := beta + (z.nx + z.na)
  let alpha_a := alpha_x + z.nx
  let gk := alpha_a + z.na
  let step := gk + z.nx
  let dlam_x := step + (z.nx + z.na)
  let dg := dlam_x + z.nx
  { kkt := kkt, kktd := kktd, xk := xk, lam_xk := lam_xk, lam_ak := lam_ak, v := v, r := r,
    beta := beta, alpha_x := alpha_x, alpha_a := alpha_a, gk := gk, step := step,
    dlam_x := dlam_x, dg := dg, w := dg + z.na }

/-- The persistent length that `init` requests (lines 96-114): the sum of the sizes passed
to `alloc_w(..., true)`, in the order of the calls. -/
def persistent_w (z : Sizes) : ℕ :=
  z.kkt_nnz + z.kktd_nnz + z.nx + z.na + z.nx + z.na + z.nx + z.na + (z.nx + z.na) + z.nx
    + z.na + z.v_nnz + z.r_nnz + (z.nx + z.na)

/-- The sizes of a problem with one variable and two constraints, `H` and `A` dense. -/
def moreCons : Sizes := { nx := 1, na := 2, kkt_nnz := 5, kktd_nnz := 7, v_nnz := 6, r_nnz := 6 }

/-- The sizes of a problem with two variables and one constraint, `H` and `A` dense. -/
def moreVars : Sizes := { nx := 2, na := 1, kkt_nnz := 8, kktd_nnz := 9, v_nnz := 6, r_nnz := 6 }

/-- A solver instance with one variable and two constraints, `H` and `A` dense: the sizes
are those of `moreCons`. -/
def oneVarTwoCons : Conic :=
  { nx := 1, na := 2, H_ := sp11,
    A_ := { nrow := 2, ncol := 1, colind := iofList [0, 2], row := iofList [0, 1] },
    AT_ := { nrow := 1, ncol := 2, colind := iofList [0, 1, 2], row := iofList [0, 0] },
    kkt_ := { nrow := 3, ncol := 3, colind := iofList [0, 3, 4, 5],
              row := iofList [0, 1, 2, 0, 0] },
    kktd_ := { nrow := 3, ncol := 3, colind := iofList [0, 3, 5, 7],
               row := iofList [0, 1, 2, 0, 1, 0, 2] },
    max_iter := 1 }

/-- The problem `min x^2/2 + 7x`, `-10 ≤ x ≤ 10`, with the constraints `-10 ≤ x ≤ 10` and
`x = 5` (`A = [1; 1]`, `lba = [-10, 5]`, `uba = [10, 5]`), started at `x0 = 3` with zero
multipliers. -/
def overlapArgs : Args :=
  { h := ofList [1], g := ofList [7], a := ofList [1, 1],
    bnd := { lbx := some (ofList [-10]), ubx := some (ofList [10]),
             lba := some (ofList [-10, 5]), uba := some (ofList [10, 5]) },
    x0 := some (ofList [3]), lam_x0 := none, lam_a0 := none }

/-! ## The blocks of a pattern -/

/-- The stored entry `k` lies in a column from `cbeg` on and in a row of `[rbeg, rend)`. -/
def inBlock (sp : Sparsity) (rbeg rend cbeg : ℕ) (k : ℕ) : Prop :=
  sp.colind cbeg ≤ k ∧ rbeg ≤ sp.row k ∧ sp.row k < rend

instance (sp : Sparsity) (rbeg rend cbeg : ℕ) : DecidablePred (inBlock sp rbeg rend cbeg) := by
  intro k
  unfold inBlock
  infer_instance

/-- The number of entries of the block stored before entry `k`: the position of entry `k`
among the entries of the block in column-major order. -/
def blockRank (sp : Sparsity) (rbeg rend cbeg : ℕ) (k : ℕ) : ℕ :=
  Nat.count (inBlock sp rbeg rend cbeg) k

/-- The body of the inner loop of `casadi_set_sub`, for entry `k`. -/
def set_sub_body (y : Vec) (sp_x : Sparsity) (rbeg rend : ℕ) (k : ℕ) (s : SubState) : SubState :=
  if s.run then
    if sp_x.row k < rend then
      if sp_x.row k ≥ rbeg then { x := Function.update s.x k (y s.used), used := s.used + 1, run := true }
      else s
    else { s with run := false }
  else s

/-- The pattern `kkt_` is the pattern of `[[H, A'], [A, 0]]` built from the patterns `H_`,
`A_` and `AT_`, all three with column offsets that start at 0 and do not decrease, rows
that increase within each column and lie within the matrix. Column `c < nx` of `kkt_` holds
the entries of column `c` of `H_` followed by those of column `c` of `A_` (rows shifted by
`nx`), and column `nx + j` holds the entries of column `j` of `AT_`: nothing is stored in
the bottom-right block. -/
structure IsKktPattern (C : Conic) : Prop where
  startH : C.H_.colind 0 = 0
  startA : C.A_.colind 0 = 0
  startT : C.AT_.colind 0 = 0
  monoH : ∀ c, c < C.nx → C.H_.colind c ≤ C.H_.colind (c + 1)
  monoA : ∀ c, c < C.nx → C.A_.colind c ≤ C.A_.colind (c + 1)
  monoT : ∀ j, j < C.na → C.AT_.colind j ≤ C.AT_.colind (j + 1)
  sortedH : ∀ c, c < C.nx → ∀ k k1, C.H_.colind c ≤ k → k < k1 → k1 < C.H_.colind (c + 1) →
    C.H_.row k < C.H_.row k1
  sortedA : ∀ c, c < C.nx → ∀ k k1, C.A_.colind c ≤ k → k < k1 → k1 < C.A_.colind (c + 1) →
    C.A_.row k < C.A_.row k1
  sortedT : ∀ j, j < C.na → ∀ k k1, C.AT_.colind j ≤ k → k < k1 → k1 < C.AT_.colind (j + 1) →
    C.AT_.row k < C.AT_.row k1
  boundH : ∀ c, c < C.nx → ∀ k, C.H_.colind c ≤ k → k < C.H_.colind (c + 1) →
    C.H_.row k < C.nx
  boundA : ∀ c, c < C.nx → ∀ k, C.A_.colind c ≤ k → k < C.A_.colind (c + 1) →
    C.A_.row k < C.na
  boundT : ∀ j, j < C.na → ∀ k, C.AT_.colind j ≤ k → k < C.AT_.colind (j + 1) →
    C.AT_.row k < C.nx
  colx : ∀ c, c ≤ C.nx → C.kkt_.colind c = C.H_.colind c + C.A_.colind c
  cola : ∀ j, j ≤ C.na →
    C.kkt_.colind (C.nx + j) = C.H_.colind C.nx + C.A_.colind C.nx + C.AT_.colind j
  rowH : ∀ c, c < C.nx → ∀ k, C.H_.colind c ≤ k → k < C.H_.colind (c + 1) →
    C.kkt_.row (C.A_.colind c + k) = C.H_.row k
  rowA : ∀ c, c < C.nx → ∀ k, C.A_.colind c ≤ k → k < C.A_.colind (c + 1) →
    C.kkt_.row (C.H_.colind (c + 1) + k) = C.nx + C.A_.row k
  rowT : ∀ j, j < C.na → ∀ k, C.AT_.colind j ≤ k → k < C.AT_.colind (j + 1) →
    C.kkt_.row (C.H_.colind C.nx + C.A_.colind C.nx + k) = C.AT_.row k

/-! ## The ratio test -/

theorem ratio_x_of_none {b : Bounds} {it : Iterate} {d : Step} {i : ℕ} {s : Ratio}
    (h : new_tau_x b it d i s = none) :
    ratio_x b it d i s = casadi_assert (0 ≤ s.tau ∧ s.tau ≤ 1) (some s) := by
  unfold new_tau_x at h
  unfold ratio_x
  simp only []
  split_ifs at h ⊢ <;> simp_all [casadi_assert]

theorem ratio_x_of_some {b : Bounds} {it : Iterate} {d : Step} {i : ℕ} {s : Ratio} {q : ℚ}
    (h : new_tau_x b it d i s = some q) :
    ∃ u, ratio_x b it d i s = casadi_assert (0 ≤ q ∧ q ≤ 1)
      (some { tau := q, tau_i := i, upper := u, w := Function.update s.w i q }) := by
  unfold new_tau_x at h
  unfold ratio_x
  simp only []
  split_ifs at h ⊢ <;> simp_all [casadi_assert]
  all_goals
    by_cases hq : 0 ≤ q ∧ q ≤ 1 <;> simp [hq]

theorem ratio_a_of_none {nx : ℕ} {b : Bounds} {it : Iterate} {d : Step} {i : ℕ} {s : Ratio}
    (h : new_tau_a nx b it d i s = none) :
    ratio_a nx b it d i s = casadi_assert (0 ≤ s.tau ∧ s.tau ≤ 1) (some s) := by
  unfold new_tau_a at h
  unfold ratio_a
  simp only []
  split_ifs at h ⊢ <;> simp_all [casadi_assert]

theorem ratio_a_of_some {nx : ℕ} {b : Bounds} {it : Iterate} {d : Step} {i : ℕ} {s : Ratio}
    {q : ℚ} (h : new_tau_a nx b it d i s = some q) :
    ∃ u, ratio_a nx b it d i s = casadi_assert (0 ≤ q ∧ q ≤ 1)
      (some { tau := q, tau_i := ((nx + i : ℕ) : ℤ), upper := u,
              w := Function.update s.w (nx + i) q }) := by
  unfold new_tau_a at h
  unfold ratio_a
  simp only []
  split_ifs at h ⊢ <;> simp_all [casadi_assert]
  all_goals
    by_cases hq : 0 ≤ q ∧ q ≤ 1 <;> simp [hq]

/-- A quotient `p / st` computed when the trial point `tau * st` has reached `p`. -/
theorem quot_bound {t p c : ℚ} (htau : 0 ≤ t) (hp : 0 ≤ p) (hpos : 0 < t * c)
    (h : p ≤ t * c) : 0 < c ∧ 0 ≤ p / c ∧ p / c ≤ t := by
  have hst : 0 < c := by
    by_contra hh
    push_neg at hh
    nlinarith
  exact ⟨hst, div_nonneg hp hst.le, (div_le_iff₀ hst).mpr h⟩

theorem new_tau_x_bound {b : Bounds} {it : Iterate} {d : Step} {i : ℕ} {s : Ratio} {q : ℚ}
    (h : new_tau_x b it d i s = some q) (h0 : 0 ≤ s.tau) : 0 ≤ q ∧ q ≤ s.tau := by
  unfold new_tau_x at h
  split_ifs at h with h1 h2 h3 h4
  · obtain ⟨ha, hb⟩ := h2
    have := quot_bound (p := optAt b.ubx i - it.xk i) (c := d.step i) h0 (by linarith)
      (by linarith) (by linarith)
    simp only [Option.some.injEq] at h
    rw [← h]; exact this.2
  · obtain ⟨ha, hb⟩ := h3
    have := quot_bound (p := it.xk i - optAt b.lbx i) (c := -d.step i) h0 (by linarith)
      (by linarith) (by linarith)
    simp only [Option.some.injEq] at h
    rw [← h]
    have e : (optAt b.lbx i - it.xk i) / d.step i = (it.xk i - optAt b.lbx i) / -d.step i := by
      rw [div_neg, ← neg_div, neg_sub]
    rw [e]; exact this.2
  · simp only [Option.some.injEq] at h
    rw [← h]
    rcases h4 with ⟨ha, hb⟩ | ⟨ha, hb⟩
    · exact (quot_bound (p := -it.lam_xk i) (c := d.dlam_x i) h0 (by linarith)
        (by linarith) (by linarith)).2
    · have := quot_bound (p := it.lam_xk i) (c := -d.dlam_x i) h0 (by linarith)
        (by linarith) (by linarith)
      have e : -it.lam_xk i / d.dlam_x i = it.lam_xk i / -d.dlam_x i := by
        rw [div_neg, neg_div]
      rw [e]; exact this.2

theorem new_tau_a_bound {nx : ℕ} {b : Bounds} {it : Iterate} {d : Step} {i : ℕ} {s : Ratio}
    {q : ℚ} (h : new_tau_a nx b it d i s = some q) (h0 : 0 ≤ s.tau) : 0 ≤ q ∧ q ≤ s.tau := by
  unfold new_tau_a at h
  split_ifs at h with h1 h2 h3 h4
  · obtain ⟨ha, hb⟩ := h2
    have := quot_bound (p := optAt b.uba i - it.gk i) (c := d.dg i) h0 (by linarith)
      (by linarith) (by linarith)
    simp only [Option.some.injEq] at h
    rw [← h]; exact this.2
  · obtain ⟨ha, hb⟩ := h3
    have := quot_bound (p := it.gk i - optAt b.lba i) (c := -d.dg i) h0 (by linarith)
      (by linarith) (by linarith)
    simp only [Option.some.injEq] at h
    rw [← h]
    have e : (optAt b.lba i - it.gk i) / d.dg i = (it.gk i - optAt b.lba i) / -d.dg i := by
      rw [div_neg, ← neg_div, neg_sub]
    rw [e]; exact this.2
  · simp only [Option.some.injEq] at h
    rw [← h]
    rcases h4 with ⟨ha, hb⟩ | ⟨ha, hb⟩
    · exact (quot_bound (p := -it.lam_ak i) (c := d.step (nx + i)) h0 (by linarith)
        (by linarith) (by linarith)).2
    · have := quot_bound (p := it.lam_ak i) (c := -d.step (nx + i)) h0 (by linarith)
        (by linarith) (by linarith)
      have e : -it.lam_ak i / d.step (nx + i) = it.lam_ak i / -d.step (nx + i) := by
        rw [div_neg, neg_div]
      rw [e]; exact this.2

theorem forLoopM_succ_eq_some {σ : Type} {n : ℕ} {body : ℕ → σ → Option σ} {s r : σ}
    (h : forLoopM (n + 1) body s = some r) :
    ∃ m, forLoopM n body s = some m ∧ body n m = some r := by
  simpa [forLoopM, Option.bind_eq_some] using h

theorem ScanInv.init : ScanInv 0 ratio_init :=
  ⟨by simp [ratio_init], by simp [ratio_init], fun _ => Or.inl rfl,
    Or.inl ⟨rfl, rfl, fun _ => rfl⟩⟩

theorem ScanInv.keep {n : ℕ} {s : Ratio} (h : ScanInv n s) : ScanInv (n + 1) s := by
  refine ⟨h.tau_nonneg, h.tau_le_one, fun k => ?_, ?_⟩
  · rcases h.recorded k with hk | ⟨h1, h2⟩
    · exact Or.inl hk
    · exact Or.inr ⟨Nat.lt_succ_of_lt h1, h2⟩
  · rcases h.last with hl | ⟨k, h1, h2⟩
    · exact Or.inl hl
    · exact Or.inr ⟨k, Nat.lt_succ_of_lt h1, h2⟩

theorem ScanInv.block {n : ℕ} {s : Ratio} (h : ScanInv n s) {q : ℚ} (hq0 : 0 ≤ q)
    (hq : q ≤ s.tau) (u : Option Bool) :
    ScanInv (n + 1) { tau := q, tau_i := (n : ℤ), upper := u, w := Function.update s.w n q } := by
  refine ⟨hq0, le_trans hq h.tau_le_one, fun k => ?_, Or.inr ⟨n, Nat.lt_succ_self n, rfl, ?_⟩⟩
  · by_cases hk : k = n
    · subst hk
      refine Or.inr ⟨Nat.lt_succ_self k, ?_, ?_, le_refl _⟩
      · simp
      · simpa using le_trans hq h.tau_le_one
    · rcases h.recorded k with h1 | ⟨h1, h2, h3, _⟩
      · left
        simpa [Function.update_noteq hk] using h1
      · right
        refine ⟨Nat.lt_succ_of_lt h1, ?_, ?_, ?_⟩
        · simpa [Function.update_noteq hk] using le_trans hq h2
        · simpa [Function.update_noteq hk] using h3
        · simp only
          exact_mod_cast h1.le
  · simp

/-- One step of the scan of the variables keeps the invariant, never fails from a state that
satisfies it, and does not increase `tau`. -/
theorem ratio_x_step (b : Bounds) (it : Iterate) (d : Step) {n : ℕ} {s : Ratio}
    (h : ScanInv n s) :
    ∃ r, ratio_x b it d n s = some r ∧ ScanInv (n + 1) r ∧ r.tau ≤ s.tau := by
  cases hq : new_tau_x b it d n s with
  | none =>
    refine ⟨s, ?_, h.keep, le_refl _⟩
    rw [ratio_x_of_none hq]
    simp [casadi_assert, h.tau_nonneg, h.tau_le_one]
  | some q =>
    obtain ⟨u, hu⟩ := ratio_x_of_some hq
    obtain ⟨hq0, hq1⟩ := new_tau_x_bound hq h.tau_nonneg
    refine ⟨_, ?_, h.block hq0 hq1 u, hq1⟩
    rw [hu]
    simp [casadi_assert, hq0, le_trans hq1 h.tau_le_one]

/-- One step of the scan of the constraints keeps the invariant, never fails from a state
that satisfies it, and does not increase `tau`. -/
theorem ratio_a_step {nx : ℕ} (b : Bounds) (it : Iterate) (d : Step) {i : ℕ} {s : Ratio}
    (h : ScanInv (nx + i) s) :
    ∃ r, ratio_a nx b it d i s = some r ∧ ScanInv (nx + i + 1) r ∧ r.tau ≤ s.tau := by
  cases hq : new_tau_a nx b it d i s with
  | none =>
    refine ⟨s, ?_, h.keep, le_refl _⟩
    rw [ratio_a_of_none hq]
    simp [casadi_assert, h.tau_nonneg, h.tau_le_one]
  | some q =>
    obtain ⟨u, hu⟩ := ratio_a_of_some hq
    obtain ⟨hq0, hq1⟩ := new_tau_a_bound hq h.tau_nonneg
    refine ⟨_, ?_, h.block hq0 hq1 u, hq1⟩
    rw [hu]
    simp [casadi_assert, hq0, le_trans hq1 h.tau_le_one]

theorem scan_x (b : Bounds) (it : Iterate) (d : Step) (n : ℕ) :
    ∃ r, forLoopM n (ratio_x b it d) ratio_init = some r ∧ ScanInv n r := by
  induction n with
  | zero => exact ⟨ratio_init, rfl, ScanInv.init⟩
  | succ n ih =>
    obtain ⟨m, hm, hinv⟩ := ih
    obtain ⟨r, hr, hinv2, _⟩ := ratio_x_step b it d hinv
    exact ⟨r, by simp [forLoopM, hm, hr], hinv2⟩

theorem scan_a {nx : ℕ} (b : Bounds) (it : Iterate) (d : Step) {s : Ratio}
    (hs : ScanInv nx s) (n : ℕ) :
    ∃ r, forLoopM n (ratio_a nx b it d) s = some r ∧ ScanInv (nx + n) r := by
  induction n with
  | zero => exact ⟨s, rfl, hs⟩
  | succ n ih =>
    obtain ⟨m, hm, hinv⟩ := ih
    obtain ⟨r, hr, hinv2, _⟩ := ratio_a_step b it d hinv
    exact ⟨r, by simp [forLoopM, hm, hr], hinv2⟩

/-- In exact arithmetic the ratio test returns, and its result satisfies the invariant of
the scan for all `nx + na` entries. -/
theorem ratio_test_inv (nx na : ℕ) (b : Bounds) (it : Iterate) (d : Step) :
    ∃ r, ratio_test nx na b it d = some r ∧ ScanInv (nx + na) r := by
  obtain ⟨m, hm, hinv⟩ := scan_x b it d nx
  obtain ⟨r, hr, hinv2⟩ := scan_a b it d hinv na
  exact ⟨r, by simp [ratio_test, hm, hr], hinv2⟩

theorem ratio_test_some_inv {nx na : ℕ} {b : Bounds} {it : Iterate} {d : Step} {r : Ratio}
    (h : ratio_test nx na b it d = some r) : ScanInv (nx + na) r := by
  obtain ⟨r1, hr1, hinv⟩ := ratio_test_inv nx na b it d
  rw [h] at hr1
  cases hr1
  exact hinv

theorem ratio_x_tau_of_some {b : Bounds} {it : Iterate} {d : Step} {i : ℕ} {s r : Ratio}
    {q : ℚ} (hq : new_tau_x b it d i s = some q) :
    (ratio_x b it d i s = none ↔ ¬ (0 ≤ q ∧ q ≤ 1)) ∧
      (ratio_x b it d i s = some r → r.tau = q) := by
  obtain ⟨u, hu⟩ := ratio_x_of_some hq
  rw [hu]
  by_cases h : 0 ≤ q ∧ q ≤ 1
  · simp only [casadi_assert, h, and_self, if_true, not_true_eq_false, iff_false]
    refine ⟨by simp, fun e => ?_⟩
    cases e
    rfl
  · simp [casadi_assert, h]

theorem ratio_a_tau_of_some {nx : ℕ} {b : Bounds} {it : Iterate} {d : Step} {i : ℕ}
    {s r : Ratio} {q : ℚ} (hq : new_tau_a nx b it d i s = some q) :
    (ratio_a nx b it d i s = none ↔ ¬ (0 ≤ q ∧ q ≤ 1)) ∧
      (ratio_a nx b it d i s = some r → r.tau = q) := by
  obtain ⟨u, hu⟩ := ratio_a_of_some hq
  rw [hu]
  by_cases h : 0 ≤ q ∧ q ≤ 1
  · simp only [casadi_assert, h, and_self, if_true, not_true_eq_false, iff_false]
    refine ⟨by simp, fun e => ?_⟩
    cases e
    rfl
  · simp [casadi_assert, h]

theorem scan_eval : ratio_test 2 1 scanBounds scanIt scanStep = some scanResult := by
  with_unfolding_all rfl

theorem tie_eval : ratio_test 2 0 tieBounds tieIt tieStep = some tieResult := by
  with_unfolding_all rfl

theorem far_new_tau : new_tau_x farBounds farIt farStep 0 farState = some 2 := by
  with_unfolding_all rfl


theorem dual_eval :
    ratio_test (oneByOne 1).nx (oneByOne 1).na freeArgs.bnd dualIt dualStep = some dualResult := by
  with_unfolding_all rfl

/-! ## Loops that write one entry per iteration -/

/-- A loop whose iteration `i` rewrites entry `i` from its own former value rewrites the
entries below the bound, each once. -/
theorem forLoop_update_at (f : ℕ → ℚ → ℚ) (n : ℕ) (v : Vec) (j : ℕ) :
    forLoop n (fun i v1 => Function.update v1 i (f i (v1 i))) v j
      = if j < n then f j (v j) else v j := by
  induction n with
  | zero => simp [forLoop]
  | succ n ih =>
    simp only [forLoop]
    by_cases hj : j = n
    · subst hj
      have h0 : forLoop j (fun i v1 => Function.update v1 i (f i (v1 i))) v j = v j := by
        simpa using ih
      simp [h0]
    · rw [Function.update_noteq hj, ih]
      have : j < n + 1 ↔ j < n := by omega
      simp [this]

/-- A loop over `a ≤ k < b` whose iteration `k` stores `f k` in entry `k`. -/
theorem forRange_update_at (f : ℕ → ℚ) (a b : ℕ) (v : Vec) (j : ℕ) :
    forRange a b (fun k v1 => Function.update v1 k (f k)) v j
      = if a ≤ j ∧ j < b then f j else v j := by
  unfold forRange
  have key : ∀ n, forLoop n (fun i v1 => Function.update v1 (a + i) (f (a + i))) v j
      = if a ≤ j ∧ j < a + n then f j else v j := by
    intro n
    induction n with
    | zero =>
      have : ¬ (a ≤ j ∧ j < a) := by omega
      simp [forLoop, this]
    | succ n ih =>
      simp only [forLoop]
      by_cases hj : j = a + n
      · subst hj
        simp
      · rw [Function.update_noteq hj, ih]
        have : (a ≤ j ∧ j < a + (n + 1)) ↔ (a ≤ j ∧ j < a + n) := by omega
        simp [this]
  rw [key]
  have : (a ≤ j ∧ j < a + (b - a)) ↔ (a ≤ j ∧ j < b) := by omega
  simp [this]

theorem casadi_copy_apply (x : Option Vec) (n : ℕ) (y : Vec) (j : ℕ) :
    casadi_copy x n y j = if j < n then optAt x j else y j := by
  unfold casadi_copy
  exact forLoop_update_at (fun i _ => optAt x i) n y j

theorem casadi_axpy_apply (n : ℕ) (alpha : ℚ) (x y : Vec) (j : ℕ) :
    casadi_axpy n alpha x y j = if j < n then y j + alpha * x j else y j := by
  unfold casadi_axpy
  exact forLoop_update_at (fun i t => t + alpha * x i) n y j

/-! ## The seeding of the active set -/

theorem DBL_MIN_pos : 0 < DBL_MIN := by
  unfold DBL_MIN
  positivity

/-- The multiplier that the first seeding loop stores for variable `i`. -/
theorem seed_x_eq (b : Bounds) (xk : Vec) (i : ℕ) (lam : Vec) :
    seed_x b xk i lam = Function.update lam i
      (if optAt b.lbx i ≠ optAt b.ubx i then 0
       else if xk i ≤ optAt b.lbx i then min (lam i) (-DBL_MIN) else max (lam i) DBL_MIN) := by
  unfold seed_x
  simp only []
  split_ifs <;> rfl

/-- The multiplier that the second seeding loop stores for constraint `i`. -/
theorem seed_a_eq (b : Bounds) (gk : Vec) (i : ℕ) (lam : Vec) :
    seed_a b gk i lam = Function.update lam i
      (if optAt b.lba i ≠ optAt b.uba i then 0
       else if gk i ≤ optAt b.uba i then min (lam i) (-DBL_MIN) else max (lam i) DBL_MIN) := by
  unfold seed_a
  simp only []
  split_ifs <;> rfl

theorem seed_lam_xk (C : Conic) (A : Args) (i : ℕ) (hi : i < C.nx) :
    (seed C A).lam_xk i =
      if optAt A.bnd.lbx i ≠ optAt A.bnd.ubx i then 0
      else if (seed C A).xk i ≤ optAt A.bnd.lbx i then min (optAt A.lam_x0 i) (-DBL_MIN)
      else max (optAt A.lam_x0 i) DBL_MIN := by
  obtain ⟨f, hf⟩ : ∃ f : ℕ → ℚ → ℚ, f = fun i t =>
      if optAt A.bnd.lbx i ≠ optAt A.bnd.ubx i then 0
      else if casadi_copy A.x0 C.nx fresh i ≤ optAt A.bnd.lbx i then min t (-DBL_MIN)
      else max t DBL_MIN := ⟨_, rfl⟩
  have e : seed_x A.bnd (casadi_copy A.x0 C.nx fresh)
      = fun i v1 => Function.update v1 i (f i (v1 i)) := by
    funext i v1
    rw [hf]
    exact seed_x_eq _ _ _ _
  simp only [seed]
  rw [e, forLoop_update_at f, if_pos hi, casadi_copy_apply, if_pos hi, hf]

theorem seed_lam_ak (C : Conic) (A : Args) (i : ℕ) (hi : i < C.na) :
    (seed C A).lam_ak i =
      if optAt A.bnd.lba i ≠ optAt A.bnd.uba i then 0
      else if (seed C A).gk i ≤ optAt A.bnd.uba i then min (optAt A.lam_a0 i) (-DBL_MIN)
      else max (optAt A.lam_a0 i) DBL_MIN := by
  obtain ⟨f, hf⟩ : ∃ f : ℕ → ℚ → ℚ, f = fun i t =>
      if optAt A.bnd.lba i ≠ optAt A.bnd.uba i then 0
      else if calc_g C A (casadi_copy A.x0 C.nx fresh) fresh i ≤ optAt A.bnd.uba i
        then min t (-DBL_MIN)
      else max t DBL_MIN := ⟨_, rfl⟩
  have e : seed_a A.bnd (calc_g C A (casadi_copy A.x0 C.nx fresh) fresh)
      = fun i v1 => Function.update v1 i (f i (v1 i)) := by
    funext i v1
    rw [hf]
    exact seed_a_eq _ _ _ _
  simp only [seed]
  rw [e, forLoop_update_at f, if_pos hi, casadi_copy_apply, if_pos hi, hf]

/-! ## The main loop -/

/-- In exact arithmetic an iteration of the main loop returns: the ratio test does not
throw. -/
theorem iteration_isSome (S : Solver) (C : Conic) (A : Args) (kkt : Vec) (it : Iterate) :
    ∃ r, iteration S C A kkt it = some r := by
  obtain ⟨r, hr, _⟩ := ratio_test_inv C.nx C.na A.bnd
    { it with gk := gk_at C.nx it.gk (newton_step S C A kkt it).step }
    (newton_step S C A kkt it)
  exact ⟨take_step C A { it with gk := gk_at C.nx it.gk (newton_step S C A kkt it).step }
    (newton_step S C A kkt it) r.tau, by simp [iteration, hr]⟩

theorem main_loop_isSome (S : Solver) (C : Conic) (A : Args) (kkt : Vec) (n : ℕ)
    (it : Iterate) : ∃ r, main_loop S C A kkt n it = some r := by
  induction n with
  | zero => exact ⟨it, rfl⟩
  | succ n ih =>
    obtain ⟨m, hm⟩ := ih
    obtain ⟨r, hr⟩ := iteration_isSome S C A kkt m
    refine ⟨r, ?_⟩
    unfold main_loop at hm ⊢
    simp [forLoopM, hm, hr]

theorem eval_isSome (S : Solver) (C : Conic) (A : Args) : (eval S C A).isSome = true := by
  obtain ⟨r, hr⟩ := main_loop_isSome S C A (assemble C A) C.max_iter.toNat (seed C A)
  simp [eval, hr]

/-! ## The active-set modification of `kktd` -/

/-- Column offsets that do not decrease from one column to the next do not decrease over
any range of columns. -/
theorem colind_le (ci : IVec) (N : ℕ) (hmono : ∀ c, c < N → ci c ≤ ci (c + 1)) (a b : ℕ)
    (hab : a ≤ b) (hb : b ≤ N) : ci a ≤ ci b := by
  induction b with
  | zero =>
    have : a = 0 := by omega
    subst this
    exact le_refl _
  | succ b ih =>
    by_cases h : a = b + 1
    · subst h
      exact le_refl _
    · exact le_trans (ih (by omega) (by omega)) (hmono b (by omega))

/-- A loop that overwrites the columns `o + c`, `c < n`, selected by `P` leaves alone every
entry that lies in none of the selected columns. -/
theorem cols_loop_outside (ci row : IVec) (P : ℕ → Prop) [DecidablePred P] (val : ℚ)
    (o n : ℕ) (kd : Vec) (k : ℕ)
    (hk : ∀ c, c < n → P c → ¬ (ci (o + c) ≤ k ∧ k < ci (o + c + 1))) :
    forLoop n (fun c kd1 =>
      if P c then
        forRange (ci (o + c)) (ci (o + c + 1)) (fun k kd2 =>
          Function.update kd2 k (if row k = o + c then val else 0)) kd1
      else kd1) kd k = kd k := by
  induction n with
  | zero => rfl
  | succ n ih =>
    simp only [forLoop]
    have ih1 := ih (fun c hc hP => hk c (by omega) hP)
    by_cases hP : P n
    · rw [if_pos hP, forRange_update_at, if_neg (hk n (by omega) hP)]
      exact ih1
    · rw [if_neg hP]
      exact ih1

/-- A loop that overwrites the columns `o + c`, `c < n`, selected by `P`: the value of an
entry of column `o + c`. -/
theorem cols_loop_inside (ci row : IVec) (P : ℕ → Prop) [DecidablePred P] (val : ℚ)
    (o n : ℕ) (kd : Vec) (hmono : ∀ c, c < o + n → ci c ≤ ci (c + 1))
    (c k : ℕ) (hc : c < n) (hk1 : ci (o + c) ≤ k) (hk2 : k < ci (o + c + 1)) :
    forLoop n (fun c kd1 =>
      if P c then
        forRange (ci (o + c)) (ci (o + c + 1)) (fun k kd2 =>
          Function.update kd2 k (if row k = o + c then val else 0)) kd1
      else kd1) kd k = if P c then (if row k = o + c then val else 0) else kd k := by
  induction n with
  | zero => omega
  | succ n ih =>
    simp only [forLoop]
    by_cases hcn : c = n
    · subst hcn
      by_cases hP : P c
      · rw [if_pos hP, forRange_update_at, if_pos ⟨hk1, hk2⟩, if_pos hP]
      · rw [if_neg hP, if_neg hP]
        apply cols_loop_outside
        intro c1 hc1 _ hin
        have := colind_le ci (o + (c + 1)) hmono (o + c1 + 1) (o + c) (by omega) (by omega)
        omega
    · have hlt : c < n := by omega
      have ih1 := ih (fun c1 h1 => hmono c1 (by omega)) hlt
      have hout : ¬ (ci (o + n) ≤ k ∧ k < ci (o + n + 1)) := by
        intro hin
        have := colind_le ci (o + (n + 1)) hmono (o + c + 1) (o + n) (by omega) (by omega)
        omega
      by_cases hP : P n
      · rw [if_pos hP, forRange_update_at, if_neg hout]
        exact ih1
      · rw [if_neg hP]
        exact ih1

theorem modify_kktd_apply (C : Conic) (lam_xk lam_ak kktd : Vec)
    (hmono : ∀ c, c < C.nx + C.na → C.kktd_.colind c ≤ C.kktd_.colind (c + 1))
    (c k : ℕ) (hc : c < C.nx + C.na)
    (hk1 : C.kktd_.colind c ≤ k) (hk2 : k < C.kktd_.colind (c + 1)) :
    modify_kktd C lam_xk lam_ak kktd k =
      if c < C.nx then
        (if lam_xk c ≠ 0 then (if C.kktd_.row k = c then 1 else 0) else kktd k)
      else
        (if lam_ak (c - C.nx) = 0 then (if C.kktd_.row k = c then -1 else 0) else kktd k) := by
  have first := cols_loop_inside C.kktd_.colind C.kktd_.row (fun c => lam_xk c ≠ 0) 1 0 C.nx
    kktd (fun c1 h1 => hmono c1 (by omega))
  have firstOut := cols_loop_outside C.kktd_.colind C.kktd_.row (fun c => lam_xk c ≠ 0) 1 0
    C.nx kktd k
  simp only [zero_add] at first firstOut
  unfold modify_kktd
  by_cases hcx : c < C.nx
  · rw [if_pos hcx, cols_loop_outside C.kktd_.colind C.kktd_.row (fun c => lam_ak c = 0) (-1)
      C.nx C.na _ k]
    · exact first c k hcx hk1 hk2
    · intro c1 hc1 _ hin
      have := colind_le C.kktd_.colind (C.nx + C.na) hmono (c + 1) (C.nx + c1) (by omega)
        (by omega)
      omega
  · rw [if_neg hcx]
    obtain ⟨j, rfl⟩ : ∃ j, c = C.nx + j := ⟨c - C.nx, by omega⟩
    rw [cols_loop_inside C.kktd_.colind C.kktd_.row (fun c => lam_ak c = 0) (-1) C.nx C.na _
      hmono j k (by omega) hk1 hk2]
    have e : C.nx + j - C.nx = j := by omega
    rw [e]
    by_cases hl : lam_ak j = 0
    · simp [hl]
    · rw [if_neg hl, if_neg hl]
      apply firstOut
      intro c1 hc1 _ hin
      have := colind_le C.kktd_.colind (C.nx + C.na) hmono (c1 + 1) (C.nx + j) (by omega)
        (by omega)
      omega

/-! ## More on the ratio test -/

theorem mul_pos_right_ne_zero {t c : ℚ} (h : 0 < t * c) : c ≠ 0 := by
  intro hc
  rw [hc, mul_zero] at h
  exact lt_irrefl _ h

/-- The branch that computes a step length at variable `i` divides by a nonzero number. -/
theorem new_tau_x_divisor {b : Bounds} {it : Iterate} {d : Step} {i : ℕ} {s : Ratio} {q : ℚ}
    (h : new_tau_x b it d i s = some q) : divisor_x it d i ≠ 0 := by
  unfold new_tau_x at h
  unfold divisor_x
  split_ifs at h ⊢ with h1 h2 h3 h4
  · exact mul_pos_right_ne_zero (t := s.tau) (by linarith [h2.1, h2.2])
  · have : 0 < s.tau * -d.step i := by linarith [h3.1, h3.2]
    exact fun hc => mul_pos_right_ne_zero this (by rw [hc, neg_zero])
  · rcases h4 with ⟨ha, hb⟩ | ⟨ha, hb⟩
    · exact mul_pos_right_ne_zero (t := s.tau) (by linarith)
    · have : 0 < s.tau * -d.dlam_x i := by linarith
      exact fun hc => mul_pos_right_ne_zero this (by rw [hc, neg_zero])

/-- The branch that computes a step length at constraint `i` divides by a nonzero number. -/
theorem new_tau_a_divisor {nx : ℕ} {b : Bounds} {it : Iterate} {d : Step} {i : ℕ} {s : Ratio}
    {q : ℚ} (h : new_tau_a nx b it d i s = some q) : divisor_a nx it d i ≠ 0 := by
  unfold new_tau_a at h
  unfold divisor_a
  split_ifs at h ⊢ with h1 h2 h3 h4
  · exact mul_pos_right_ne_zero (t := s.tau) (by linarith [h2.1, h2.2])
  · have : 0 < s.tau * -d.dg i := by linarith [h3.1, h3.2]
    exact fun hc => mul_pos_right_ne_zero this (by rw [hc, neg_zero])
  · rcases h4 with ⟨ha, hb⟩ | ⟨ha, hb⟩
    · exact mul_pos_right_ne_zero (t := s.tau) (by linarith)
    · have : 0 < s.tau * -d.step (nx + i) := by linarith
      exact fun hc => mul_pos_right_ne_zero this (by rw [hc, neg_zero])

/-- The result of one step of the scan of the variables: the state is kept, or entry `i`
records the step length that was computed. -/
theorem ratio_x_result {b : Bounds} {it : Iterate} {d : Step} {i : ℕ} {s r : Ratio}
    (h : ratio_x b it d i s = some r) :
    (new_tau_x b it d i s = none ∧ r = s) ∨
    (∃ q u, new_tau_x b it d i s = some q ∧
      r = { tau := q, tau_i := (i : ℤ), upper := u, w := Function.update s.w i q }) := by
  cases hq : new_tau_x b it d i s with
  | none =>
    rw [ratio_x_of_none hq] at h
    unfold casadi_assert at h
    split_ifs at h
    cases h
    exact Or.inl ⟨rfl, rfl⟩
  | some q =>
    obtain ⟨u, hu⟩ := ratio_x_of_some hq
    rw [hu] at h
    unfold casadi_assert at h
    split_ifs at h
    cases h
    exact Or.inr ⟨q, u, rfl, rfl⟩

/-- The result of one step of the scan of the constraints: the state is kept, or entry
`nx + i` records the step length that was computed. -/
theorem ratio_a_result {nx : ℕ} {b : Bounds} {it : Iterate} {d : Step} {i : ℕ} {s r : Ratio}
    (h : ratio_a nx b it d i s = some r) :
    (new_tau_a nx b it d i s = none ∧ r = s) ∨
    (∃ q u, new_tau_a nx b it d i s = some q ∧
      r = { tau := q, tau_i := ((nx + i : ℕ) : ℤ), upper := u,
            w := Function.update s.w (nx + i) q }) := by
  cases hq : new_tau_a nx b it d i s with
  | none =>
    rw [ratio_a_of_none hq] at h
    unfold casadi_assert at h
    split_ifs at h
    cases h
    exact Or.inl ⟨rfl, rfl⟩
  | some q =>
    obtain ⟨u, hu⟩ := ratio_a_of_some hq
    rw [hu] at h
    unfold casadi_assert at h
    split_ifs at h
    cases h
    exact Or.inr ⟨q, u, rfl, rfl⟩

/-- The step length computed at an active variable is `-lam/dlam`. -/
theorem new_tau_x_active {b : Bounds} {it : Iterate} {d : Step} {i : ℕ} {s : Ratio} {q : ℚ}
    (h : new_tau_x b it d i s = some q) (ha : it.lam_xk i ≠ 0) :
    d.dlam_x i ≠ 0 ∧ q = -it.lam_xk i / d.dlam_x i := by
  have hd := new_tau_x_divisor h
  unfold divisor_x at hd
  rw [if_neg ha] at hd
  refine ⟨hd, ?_⟩
  unfold new_tau_x at h
  rw [if_neg ha] at h
  split_ifs at h
  simp only [Option.some.injEq] at h
  exact h.symm

/-- The step length computed at an active constraint is `-lam/dlam`. -/
theorem new_tau_a_active {nx : ℕ} {b : Bounds} {it : Iterate} {d : Step} {i : ℕ} {s : Ratio}
    {q : ℚ} (h : new_tau_a nx b it d i s = some q) (ha : it.lam_ak i ≠ 0) :
    d.step (nx + i) ≠ 0 ∧ q = -it.lam_ak i / d.step (nx + i) := by
  have hd := new_tau_a_divisor h
  unfold divisor_a at hd
  rw [if_neg ha] at hd
  refine ⟨hd, ?_⟩
  unfold new_tau_a at h
  rw [if_neg ha] at h
  split_ifs at h
  simp only [Option.some.injEq] at h
  exact h.symm

theorem dual_recorded_x (nx : ℕ) (b : Bounds) (it : Iterate) (d : Step) (n : ℕ) (hn : n ≤ nx)
    (s : Ratio) (h : forLoopM n (ratio_x b it d) ratio_init = some s) :
    DualRecorded nx it d s.w := by
  induction n generalizing s with
  | zero =>
    cases h
    exact ⟨fun i _ _ hw => absurd rfl hw, fun j _ hw => absurd rfl hw⟩
  | succ n ih =>
    obtain ⟨m, hm, hr⟩ := forLoopM_succ_eq_some h
    have hinv := ih (by omega) m hm
    rcases ratio_x_result hr with ⟨_, rfl⟩ | ⟨q, u, hq, rfl⟩
    · exact hinv
    · refine ⟨fun i hi ha hw => ?_, fun j ha hw => ?_⟩
      · by_cases hin : i = n
        · subst hin
          simp only [Function.update_same]
          exact new_tau_x_active hq ha
        · simp only [Function.update_noteq hin] at hw ⊢
          exact hinv.1 i hi ha hw
      · have hne : nx + j ≠ n := by omega
        simp only [Function.update_noteq hne] at hw ⊢
        exact hinv.2 j ha hw

theorem dual_recorded_a (nx : ℕ) (b : Bounds) (it : Iterate) (d : Step) (n : ℕ)
    (s0 s : Ratio) (h0 : DualRecorded nx it d s0.w)
    (h : forLoopM n (ratio_a nx b it d) s0 = some s) : DualRecorded nx it d s.w := by
  induction n generalizing s with
  | zero =>
    cases h
    exact h0
  | succ n ih =>
    obtain ⟨m, hm, hr⟩ := forLoopM_succ_eq_some h
    have hinv := ih m hm
    rcases ratio_a_result hr with ⟨_, rfl⟩ | ⟨q, u, hq, rfl⟩
    · exact hinv
    · refine ⟨fun i hi ha hw => ?_, fun j ha hw => ?_⟩
      · have hne : i ≠ nx + n := by omega
        simp only [Function.update_noteq hne] at hw ⊢
        exact hinv.1 i hi ha hw
      · by_cases hin : j = n
        · subst hin
          simp only [Function.update_same]
          exact new_tau_a_active hq ha
        · have hne : nx + j ≠ nx + n := by omega
          simp only [Function.update_noteq hne] at hw ⊢
          exact hinv.2 j ha hw

theorem ratio_test_dual_recorded {nx na : ℕ} {b : Bounds} {it : Iterate} {d : Step}
    {r : Ratio} (h : ratio_test nx na b it d = some r) : DualRecorded nx it d r.w := by
  unfold ratio_test at h
  obtain ⟨m, hm, hr⟩ := Option.bind_eq_some.mp h
  exact dual_recorded_a nx b it d na m r (dual_recorded_x nx b it d nx (le_refl _) m hm) hr

/-! ### Feasibility of the inactive constraints -/

theorem forLoop_congr {σ : Type} (n : ℕ) (f g : ℕ → σ → σ) (s : σ)
    (h : ∀ i, i < n → ∀ t, f i t = g i t) : forLoop n f s = forLoop n g s := by
  induction n with
  | zero => rfl
  | succ n ih =>
    simp only [forLoop]
    rw [ih (fun i hi t => h i (by omega) t), h n (by omega)]

theorem forLoopM_congr {σ : Type} (n : ℕ) (f g : ℕ → σ → Option σ) (s : σ)
    (h : ∀ i, i < n → ∀ t, f i t = g i t) : forLoopM n f s = forLoopM n g s := by
  induction n with
  | zero => rfl
  | succ n ih =>
    simp only [forLoopM]
    rw [ih (fun i hi t => h i (by omega) t)]
    congr 1
    funext t
    exact h n (by omega) t

theorem forRange_congr {σ : Type} (a b : ℕ) (f g : ℕ → σ → σ) (s : σ)
    (h : ∀ k, a ≤ k → k < b → ∀ t, f k t = g k t) : forRange a b f s = forRange a b g s := by
  unfold forRange
  exact forLoop_congr _ _ _ _ (fun j hj t => h (a + j) (by omega) (by omega) t)

/-- A loop whose iteration `i` rewrites entry `o + i` from its own former value. -/
theorem forLoop_update_off (f : ℕ → ℚ → ℚ) (o n : ℕ) (v : Vec) (j : ℕ) :
    forLoop n (fun i v1 => Function.update v1 (o + i) (f i (v1 (o + i)))) v j
      = if o ≤ j ∧ j < o + n then f (j - o) (v j) else v j := by
  induction n with
  | zero =>
    have : ¬ (o ≤ j ∧ j < o) := by omega
    simp [forLoop, this]
  | succ n ih =>
    simp only [forLoop]
    by_cases hj : j = o + n
    · subst hj
      have h0 : forLoop n (fun i v1 => Function.update v1 (o + i) (f i (v1 (o + i)))) v (o + n)
          = v (o + n) := by
        rw [ih]
        have : ¬ (o ≤ o + n ∧ o + n < o + n) := by omega
        simp [this]
      simp [h0]
    · rw [Function.update_noteq hj, ih]
      have : (o ≤ j ∧ j < o + (n + 1)) ↔ (o ≤ j ∧ j < o + n) := by omega
      simp [this]

theorem casadi_scal_apply (n : ℕ) (alpha : ℚ) (x : Vec) (j : ℕ) :
    casadi_scal n alpha x j = if j < n then x j * alpha else x j := by
  unfold casadi_scal
  exact forLoop_update_at (fun _ t => t * alpha) n x j

/-! ## The right-hand side of the KKT solve -/

/-- The copy of line 398 writes the entries of `step` from `nx` on only. -/
theorem copy_gk_below (nx : ℕ) (gk : Vec) (n : ℕ) (s : Vec) (j : ℕ) (hj : j < nx) :
    forLoop n (fun i st => Function.update st (nx + i) (gk_at nx gk st i)) s j = s j := by
  induction n with
  | zero => rfl
  | succ n ih =>
    simp only [forLoop]
    rw [Function.update_noteq (by omega), ih]

/-- The copy of line 398 stores `gk[j]` in `step[nx + j]` for a constraint `j` below `nx`,
whose entry of `gk` lies before `step`. -/
theorem copy_gk_at (nx : ℕ) (gk : Vec) (n : ℕ) (s : Vec) (j : ℕ) (hj : j < n) (hx : j < nx) :
    forLoop n (fun i st => Function.update st (nx + i) (gk_at nx gk st i)) s (nx + j)
      = gk j := by
  induction n with
  | zero => omega
  | succ n ih =>
    simp only [forLoop]
    by_cases h : j = n
    · subst h
      simp [gk_at, hx]
    · rw [Function.update_noteq (by omega), ih (by omega)]

/-- The copy of line 398 stores the entry `j - nx` of `step`, a row of the gradient, in
`step[nx + j]` for a constraint `j` with `nx ≤ j < 2 nx`: its entry of `gk` is an entry of
`step`, which lines 395-397 have overwritten. -/
theorem copy_gk_overlap (nx : ℕ) (gk : Vec) (n : ℕ) (s : Vec) (j : ℕ) (hj : j < n)
    (h1 : nx ≤ j) (h2 : j < 2 * nx) :
    forLoop n (fun i st => Function.update st (nx + i) (gk_at nx gk st i)) s (nx + j)
      = s (j - nx) := by
  induction n with
  | zero => omega
  | succ n ih =>
    simp only [forLoop]
    by_cases h : j = n
    · subst h
      have hlt : ¬ j < nx := by omega
      simp only [Function.update_same, gk_at, if_neg hlt]
      exact copy_gk_below nx gk j s (j - nx) (by omega)
    · rw [Function.update_noteq (by omega), ih (by omega)]

/-- The correction for active simple bounds (lines 401-407) rewrites entry `i` only, to
`resid_x`. -/
theorem rhs_corr_x (b : Bounds) (it : Iterate) (i : ℕ) (st : Vec) :
    (if it.lam_xk i ≠ 0 then
      (if b.ubx.isSome ∧ it.lam_xk i > 0 then
        Function.update
          (if b.lbx.isSome ∧ it.lam_xk i < 0 then
            Function.update (Function.update st i (it.xk i)) i
              (Function.update st i (it.xk i) i - optAt b.lbx i)
           else Function.update st i (it.xk i)) i
          ((if b.lbx.isSome ∧ it.lam_xk i < 0 then
            Function.update (Function.update st i (it.xk i)) i
              (Function.update st i (it.xk i) i - optAt b.lbx i)
           else Function.update st i (it.xk i)) i - optAt b.ubx i)
       else
        (if b.lbx.isSome ∧ it.lam_xk i < 0 then
            Function.update (Function.update st i (it.xk i)) i
              (Function.update st i (it.xk i) i - optAt b.lbx i)
           else Function.update st i (it.xk i)))
     else st) = Function.update st i (resid_x b it i (st i)) := by
  unfold resid_x
  by_cases h0 : it.lam_xk i = 0
  · simp [h0]
  · rcases lt_or_gt_of_ne h0 with hneg | hpos
    · have hnp : ¬ it.lam_xk i > 0 := not_lt.mpr hneg.le
      cases hl : b.lbx <;> simp [h0, hneg, hnp, optAt]
    · have hnn : ¬ it.lam_xk i < 0 := not_lt.mpr (le_of_lt hpos)
      cases hu : b.ubx <;> simp [h0, hpos, hnn, optAt]

/-- The correction for inactive constraints (lines 410-418) rewrites entry `nx + i` only,
to `resid_a`. -/
theorem rhs_corr_a (nx : ℕ) (b : Bounds) (it : Iterate) (i : ℕ) (st : Vec) :
    (if it.lam_ak i = 0 then Function.update st (nx + i) 0
     else if b.lba.isSome ∧ it.lam_ak i < 0 then
       Function.update st (nx + i) (st (nx + i) - optAt b.lba i)
     else if b.uba.isSome ∧ it.lam_ak i > 0 then
       Function.update st (nx + i) (st (nx + i) - optAt b.uba i)
     else st) = Function.update st (nx + i) (resid_a b it i (st (nx + i))) := by
  unfold resid_a
  by_cases h0 : it.lam_ak i = 0
  · simp [h0]
  · rcases lt_or_gt_of_ne h0 with hneg | hpos
    · have hnp : ¬ it.lam_ak i > 0 := not_lt.mpr hneg.le
      cases hl : b.lba <;> simp [h0, hneg, hnp, optAt]
    · have hnn : ¬ it.lam_ak i < 0 := not_lt.mpr (le_of_lt hpos)
      cases hu : b.uba <;> cases hl : b.lba <;> simp [h0, hpos, hnn, optAt]

/-- The right-hand side, with the two correction loops in the form of `resid_x` and
`resid_a`: it depends on the bounds through `optAt` only. -/
theorem calc_rhs_eq (C : Conic) (A : Args) (it : Iterate) :
    calc_rhs C A it = casadi_scal (C.nx + C.na) (-1)
      (forLoop C.na (fun i st =>
          Function.update st (C.nx + i) (resid_a A.bnd it i (st (C.nx + i))))
        (forLoop C.nx (fun i st => Function.update st i (resid_x A.bnd it i (st i)))
          (forLoop C.na (fun i st => Function.update st (C.nx + i) (gk_at C.nx it.gk st i))
            (lagr_grad C A it)))) := by
  unfold calc_rhs lagr_grad
  simp only []
  have e1 : ∀ s0 : Vec, forLoop C.nx (fun i st =>
      if it.lam_xk i ≠ 0 then
        (if A.bnd.ubx.isSome ∧ it.lam_xk i > 0 then
          Function.update
            (if A.bnd.lbx.isSome ∧ it.lam_xk i < 0 then
              Function.update (Function.update st i (it.xk i)) i
                (Function.update st i (it.xk i) i - optAt A.bnd.lbx i)
             else Function.update st i (it.xk i)) i
            ((if A.bnd.lbx.isSome ∧ it.lam_xk i < 0 then
              Function.update (Function.update st i (it.xk i)) i
                (Function.update st i (it.xk i) i - optAt A.bnd.lbx i)
             else Function.update st i (it.xk i)) i - optAt A.bnd.ubx i)
         else
          (if A.bnd.lbx.isSome ∧ it.lam_xk i < 0 then
              Function.update (Function.update st i (it.xk i)) i
                (Function.update st i (it.xk i) i - optAt A.bnd.lbx i)
             else Function.update st i (it.xk i)))
       else st) s0
      = forLoop C.nx (fun i st => Function.update st i (resid_x A.bnd it i (st i))) s0 :=
    fun s0 => forLoop_congr _ _ _ _ (fun i _ t => rhs_corr_x A.bnd it i t)
  rw [e1]
  refine congrArg (casadi_scal (C.nx + C.na) (-1)) ?_
  exact forLoop_congr _ _ _ _ (fun i _ t => rhs_corr_a C.nx A.bnd it i t)

theorem calc_rhs_x (C : Conic) (A : Args) (it : Iterate) (i : ℕ) (hi : i < C.nx) :
    calc_rhs C A it i = -(resid_x A.bnd it i (lagr_grad C A it i)) := by
  rw [calc_rhs_eq, casadi_scal_apply, if_pos (by omega),
    forLoop_update_off (fun i t => resid_a A.bnd it i t) C.nx C.na,
    if_neg (by omega), forLoop_update_at (fun i t => resid_x A.bnd it i t) C.nx, if_pos hi,
    copy_gk_below C.nx it.gk C.na _ i hi]
  ring

/-- The row of a constraint `j` below `nx` is the negated residual of `gk[j]`. -/
theorem calc_rhs_a (C : Conic) (A : Args) (it : Iterate) (j : ℕ) (hj : j < C.na)
    (hx : j < C.nx) :
    calc_rhs C A it (C.nx + j) = -(resid_a A.bnd it j (it.gk j)) := by
  rw [calc_rhs_eq, casadi_scal_apply, if_pos (by omega),
    forLoop_update_off (fun i t => resid_a A.bnd it i t) C.nx C.na,
    if_pos (by omega), forLoop_update_at (fun i t => resid_x A.bnd it i t) C.nx,
    if_neg (by omega), copy_gk_at C.nx it.gk C.na _ j hj hx]
  have e : C.nx + j - C.nx = j := by omega
  rw [e]
  ring

/-- The row of a constraint `j` with `nx ≤ j < 2 nx` is the negated residual of the entry
`j - nx` of the gradient of the Lagrangian, not of `gk[j]`. -/
theorem calc_rhs_a_overlap (C : Conic) (A : Args) (it : Iterate) (j : ℕ) (hj : j < C.na)
    (h1 : C.nx ≤ j) (h2 : j < 2 * C.nx) :
    calc_rhs C A it (C.nx + j) = -(resid_a A.bnd it j (lagr_grad C A it (j - C.nx))) := by
  rw [calc_rhs_eq, casadi_scal_apply, if_pos (by omega),
    forLoop_update_off (fun i t => resid_a A.bnd it i t) C.nx C.na,
    if_pos (by omega), forLoop_update_at (fun i t => resid_x A.bnd it i t) C.nx,
    if_neg (by omega), copy_gk_overlap C.nx it.gk C.na _ j hj h1 h2]
  have e : C.nx + j - C.nx = j := by omega
  rw [e]
  ring

/-- The rows of the right-hand side that are the negated residual: every variable row (the
gradient of the Lagrangian for an inactive variable, the signed distance to the active bound
otherwise), and the row of every constraint `j` below `nx` (0 when inactive, the signed
distance of `gk[j]` to the active bound otherwise). -/
theorem calc_rhs_rows (C : Conic) (A : Args) (it : Iterate) :
    (∀ i, i < C.nx → calc_rhs C A it i =
      if it.lam_xk i = 0 then -(lagr_grad C A it i)
      else if it.lam_xk i < 0 then -(it.xk i - optAt A.bnd.lbx i)
      else -(it.xk i - optAt A.bnd.ubx i)) ∧
    (∀ j, j < C.na → j < C.nx → calc_rhs C A it (C.nx + j) =
      if it.lam_ak j = 0 then 0
      else if it.lam_ak j < 0 then -(it.gk j - optAt A.bnd.lba j)
      else -(it.gk j - optAt A.bnd.uba j)) := by
  refine ⟨fun i hi => ?_, fun j hj hx => ?_⟩
  · rw [calc_rhs_x C A it i hi]
    unfold resid_x
    split_ifs <;> rfl
  · rw [calc_rhs_a C A it j hj hx]
    unfold resid_a
    split_ifs <;> simp

/-! ## The outputs of `eval` -/

/-- The bilinear form reads `x` at the rows of the stored entries and `y` at the columns. -/
theorem casadi_bilin_congr (A : Vec) (sp : Sparsity) (x1 x2 y1 y2 : Vec)
    (hx : ∀ c k, c < sp.ncol → sp.colind c ≤ k → k < sp.colind (c + 1) →
      x1 (sp.row k) = x2 (sp.row k))
    (hy : ∀ c, c < sp.ncol → y1 c = y2 c) :
    casadi_bilin A sp x1 y1 = casadi_bilin A sp x2 y2 := by
  unfold casadi_bilin
  apply forLoop_congr
  intro c hc t
  apply forRange_congr
  intro k hk1 hk2 t1
  rw [hx c k hc hk1 hk2, hy c hc]

theorem casadi_dot_congr (n : ℕ) (x1 x2 y : Vec) (hx : ∀ i, i < n → x1 i = x2 i) :
    casadi_dot n x1 y = casadi_dot n x2 y := by
  unfold casadi_dot
  apply forLoop_congr
  intro i hi t
  rw [hx i hi]

theorem take_step_fk (C : Conic) (A : Args) (it : Iterate) (d : Step) (tau : ℚ) :
    (take_step C A it d tau).fk = some
      (casadi_bilin A.h C.H_ (take_step C A it d tau).xk (take_step C A it d tau).xk / 2
        + casadi_dot C.nx (take_step C A it d tau).xk A.g) := rfl

/-- The iterate that an iteration returns carries the cost of its own `xk`. -/
theorem iteration_fk {S : Solver} {C : Conic} {A : Args} {kkt : Vec} {it r : Iterate}
    (h : iteration S C A kkt it = some r) :
    r.fk = some (casadi_bilin A.h C.H_ r.xk r.xk / 2 + casadi_dot C.nx r.xk A.g) := by
  unfold iteration at h
  simp only [Option.map_eq_some'] at h
  obtain ⟨q, _, rfl⟩ := h
  exact take_step_fk C A _ _ q.tau

theorem free_eval : eval solve2 (oneByOne 1) freeArgs = some freeResult := by
  have h := eval_isSome solve2 (oneByOne 1) freeArgs
  cases he : eval solve2 (oneByOne 1) freeArgs with
  | none => rw [he] at h; cases h
  | some v => simp [freeResult, he]

/-! ## Bounds that read the same -/

theorem seed_congr (C : Conic) (A : Args) (b1 b2 : Bounds)
    (h : BoundsAgree C.nx C.na b1 b2) : seed C (withBounds A b1) = seed C (withBounds A b2) := by
  have ex : forLoop C.nx (seed_x b1 (casadi_copy A.x0 C.nx fresh))
        (casadi_copy A.lam_x0 C.nx fresh)
      = forLoop C.nx (seed_x b2 (casadi_copy A.x0 C.nx fresh))
        (casadi_copy A.lam_x0 C.nx fresh) := by
    apply forLoop_congr
    intro i hi t
    rw [seed_x_eq, seed_x_eq, (h.1 i hi).1, (h.1 i hi).2]
  have ea : ∀ gk : Vec, forLoop C.na (seed_a b1 gk) (casadi_copy A.lam_a0 C.na fresh)
      = forLoop C.na (seed_a b2 gk) (casadi_copy A.lam_a0 C.na fresh) := by
    intro gk
    apply forLoop_congr
    intro i hi t
    rw [seed_a_eq, seed_a_eq, (h.2 i hi).1, (h.2 i hi).2]
  simp only [seed, withBounds, calc_g]
  rw [ex, ea]

theorem calc_rhs_congr (C : Conic) (A : Args) (b1 b2 : Bounds)
    (h : BoundsAgree C.nx C.na b1 b2) (it : Iterate) :
    calc_rhs C (withBounds A b1) it = calc_rhs C (withBounds A b2) it := by
  rw [calc_rhs_eq, calc_rhs_eq]
  have e0 : lagr_grad C (withBounds A b1) it = lagr_grad C (withBounds A b2) it := rfl
  rw [e0]
  simp only [withBounds]
  refine congrArg (casadi_scal (C.nx + C.na) (-1)) ?_
  have e1 : ∀ s0 : Vec,
      forLoop C.nx (fun i st => Function.update st i (resid_x b1 it i (st i))) s0
      = forLoop C.nx (fun i st => Function.update st i (resid_x b2 it i (st i))) s0 := by
    intro s0
    apply forLoop_congr
    intro i hi t
    simp only [resid_x, (h.1 i hi).1, (h.1 i hi).2]
  rw [e1]
  apply forLoop_congr
  intro i hi t
  simp only [resid_a, (h.2 i hi).1, (h.2 i hi).2]

theorem ratio_test_congr (nx na : ℕ) (b1 b2 : Bounds) (h : BoundsAgree nx na b1 b2)
    (it : Iterate) (d : Step) : ratio_test nx na b1 it d = ratio_test nx na b2 it d := by
  unfold ratio_test
  have ex : forLoopM nx (ratio_x b1 it d) ratio_init = forLoopM nx (ratio_x b2 it d) ratio_init := by
    apply forLoopM_congr
    intro i hi t
    simp only [ratio_x, (h.1 i hi).1, (h.1 i hi).2]
  rw [ex]
  congr 1
  funext s
  apply forLoopM_congr
  intro i hi t
  simp only [ratio_a, (h.2 i hi).1, (h.2 i hi).2]

theorem iteration_congr (S : Solver) (C : Conic) (A : Args) (b1 b2 : Bounds)
    (h : BoundsAgree C.nx C.na b1 b2) (kkt : Vec) (it : Iterate) :
    iteration S C (withBounds A b1) kkt it = iteration S C (withBounds A b2) kkt it := by
  have e1 : newton_step S C (withBounds A b1) kkt it = newton_step S C (withBounds A b2) kkt it := by
    unfold newton_step
    rw [calc_rhs_congr C A b1 b2 h it]
    rfl
  unfold iteration
  simp only []
  rw [e1]
  have e2 : (withBounds A b1).bnd = b1 := rfl
  have e3 : (withBounds A b2).bnd = b2 := rfl
  rw [e2, e3, ratio_test_congr C.nx C.na b1 b2 h]
  rfl

/-- The outputs of `eval` depend on the bound inputs only through what they read at the
variables and the constraints. -/
theorem eval_congr (S : Solver) (C : Conic) (A : Args) (b1 b2 : Bounds)
    (h : BoundsAgree C.nx C.na b1 b2) :
    eval S C (withBounds A b1) = eval S C (withBounds A b2) := by
  unfold eval main_loop
  rw [seed_congr C A b1 b2 h]
  have e : assemble C (withBounds A b1) = assemble C (withBounds A b2) := rfl
  rw [e]
  have e2 : (fun (_ : ℕ) it1 => iteration S C (withBounds A b1) (assemble C (withBounds A b2)) it1)
      = fun (_ : ℕ) it1 => iteration S C (withBounds A b2) (assemble C (withBounds A b2)) it1 := by
    funext _ it1
    exact iteration_congr S C A b1 b2 h _ it1
  rw [e2]

/-- With `verbose_` off, `eval` with one of `lbx`, `ubx`, `lba`, `uba` absent returns the same
as `eval` with that input present and zero at every variable (or constraint). -/
theorem eval_absent_bound (S : Solver) (C : Conic) (A : Args) (z : Vec) :
    ((∀ i, i < C.nx → z i = 0) →
      eval S C (withBounds A { A.bnd with lbx := none })
        = eval S C (withBounds A { A.bnd with lbx := some z }) ∧
      eval S C (withBounds A { A.bnd with ubx := none })
        = eval S C (withBounds A { A.bnd with ubx := some z })) ∧
    ((∀ j, j < C.na → z j = 0) →
      eval S C (withBounds A { A.bnd with lba := none })
        = eval S C (withBounds A { A.bnd with lba := some z }) ∧
      eval S C (withBounds A { A.bnd with uba := none })
        = eval S C (withBounds A { A.bnd with uba := some z })) := by
  constructor
  · intro hz
    constructor
    · apply eval_congr
      exact ⟨fun i hi => ⟨by simp [optAt, hz i hi], rfl⟩, fun j _ => ⟨rfl, rfl⟩⟩
    · apply eval_congr
      exact ⟨fun i hi => ⟨rfl, by simp [optAt, hz i hi]⟩, fun j _ => ⟨rfl, rfl⟩⟩
  · intro hz
    constructor
    · apply eval_congr
      exact ⟨fun i _ => ⟨rfl, rfl⟩, fun j hj => ⟨by simp [optAt, hz j hj], rfl⟩⟩
    · apply eval_congr
      exact ⟨fun i _ => ⟨rfl, rfl⟩, fun j hj => ⟨rfl, by simp [optAt, hz j hj]⟩⟩

/-! ## `casadi_set_sub` -/

theorem casadi_set_sub_eq (y x : Vec) (sp : Sparsity) (rbeg rend cbeg cend : ℕ) :
    casadi_set_sub y x sp rbeg rend cbeg cend =
      (forRange cbeg cend (fun c (st : Vec × ℕ) =>
        ((forRange (sp.colind c) (sp.colind (c + 1)) (set_sub_body y sp rbeg rend)
            { x := st.1, used := st.2, run := true }).x,
         (forRange (sp.colind c) (sp.colind (c + 1)) (set_sub_body y sp rbeg rend)
            { x := st.1, used := st.2, run := true }).used)) (x, 0)).1 := rfl

theorem count_of_none (P : ℕ → Prop) [DecidablePred P] (a n : ℕ)
    (h : ∀ k, a ≤ k → k < a + n → ¬ P k) : Nat.count P (a + n) = Nat.count P a := by
  induction n with
  | zero => rfl
  | succ n ih =>
    rw [← Nat.add_assoc, Nat.count_succ, ih (fun k h1 h2 => h k h1 (by omega)),
      if_neg (h (a + n) (by omega) (by omega))]
    rfl

theorem count_of_all (P : ℕ → Prop) [DecidablePred P] (a n : ℕ)
    (h : ∀ k, a ≤ k → k < a + n → P k) : Nat.count P (a + n) = Nat.count P a + n := by
  induction n with
  | zero => rfl
  | succ n ih =>
    rw [← Nat.add_assoc, Nat.count_succ, ih (fun k h1 h2 => h k h1 (by omega)),
      if_pos (h (a + n) (by omega) (by omega))]
    rfl

/-- The inner loop of `casadi_set_sub` over the `n` entries from `a` on, when the rows of
these entries increase: the entries with a row in `[rbeg, rend)` receive the next values of
`y`, the others are kept, and `used` counts the entries written. -/
theorem set_sub_col (y : Vec) (sp : Sparsity) (rbeg rend cbeg a : ℕ) (x0 : Vec)
    (ha : sp.colind cbeg ≤ a) (n : ℕ)
    (hsorted : ∀ k k1, a ≤ k → k < k1 → k1 < a + n → sp.row k < sp.row k1) :
    (forLoop n (fun j => set_sub_body y sp rbeg rend (a + j))
        { x := x0, used := blockRank sp rbeg rend cbeg a, run := true }).used
      = blockRank sp rbeg rend cbeg (a + n) ∧
    (∀ j, (forLoop n (fun j => set_sub_body y sp rbeg rend (a + j))
        { x := x0, used := blockRank sp rbeg rend cbeg a, run := true }).x j
      = if a ≤ j ∧ j < a + n ∧ rbeg ≤ sp.row j ∧ sp.row j < rend
        then y (blockRank sp rbeg rend cbeg j) else x0 j) ∧
    ((forLoop n (fun j => set_sub_body y sp rbeg rend (a + j))
        { x := x0, used := blockRank sp rbeg rend cbeg a, run := true }).run = false →
      ∃ m0, a ≤ m0 ∧ m0 < a + n ∧ rend ≤ sp.row m0) := by
  induction n with
  | zero =>
    refine ⟨rfl, fun j => ?_, fun h => by simp [forLoop] at h⟩
    have : ¬ (a ≤ j ∧ j < a ∧ rbeg ≤ sp.row j ∧ sp.row j < rend) := by omega
    simp [forLoop, this]
  | succ n ih =>
    obtain ⟨ih1, ih2, ih3⟩ := ih (fun k k1 h1 h2 h3 => hsorted k k1 h1 h2 (by omega))
    simp only [forLoop]
    generalize forLoop n (fun j => set_sub_body y sp rbeg rend (a + j))
      { x := x0, used := blockRank sp rbeg rend cbeg a, run := true } = s at ih1 ih2 ih3
    have hcount : blockRank sp rbeg rend cbeg (a + (n + 1))
        = blockRank sp rbeg rend cbeg (a + n)
          + (if inBlock sp rbeg rend cbeg (a + n) then 1 else 0) := by
      unfold blockRank
      rw [← Nat.add_assoc, Nat.count_succ]
    have hkeep : ¬ (rbeg ≤ sp.row (a + n) ∧ sp.row (a + n) < rend) →
        (s.used = blockRank sp rbeg rend cbeg (a + (n + 1)) ∧
          ∀ j, s.x j = if a ≤ j ∧ j < a + (n + 1) ∧ rbeg ≤ sp.row j ∧ sp.row j < rend
            then y (blockRank sp rbeg rend cbeg j) else x0 j) := by
      intro hP
      have hnb : ¬ inBlock sp rbeg rend cbeg (a + n) := fun hb => hP hb.2
      refine ⟨by rw [hcount, if_neg hnb, ih1]; rfl, fun j => ?_⟩
      rw [ih2 j]
      by_cases hj : j = a + n
      · subst hj
        have c1 : ¬ (a ≤ a + n ∧ a + n < a + n ∧ rbeg ≤ sp.row (a + n) ∧ sp.row (a + n) < rend) := by
          omega
        have c2 : ¬ (a ≤ a + n ∧ a + n < a + (n + 1) ∧ rbeg ≤ sp.row (a + n)
            ∧ sp.row (a + n) < rend) := fun h => hP h.2.2
        rw [if_neg c1, if_neg c2]
      · have : (a ≤ j ∧ j < a + (n + 1) ∧ rbeg ≤ sp.row j ∧ sp.row j < rend)
            ↔ (a ≤ j ∧ j < a + n ∧ rbeg ≤ sp.row j ∧ sp.row j < rend) := by omega
        simp only [this]
    unfold set_sub_body
    by_cases hrun : s.run = true
    · rw [if_pos hrun]
      by_cases hr : sp.row (a + n) < rend
      · rw [if_pos hr]
        by_cases hb : sp.row (a + n) ≥ rbeg
        · rw [if_pos hb]
          have hin : inBlock sp rbeg rend cbeg (a + n) := ⟨by omega, hb, hr⟩
          refine ⟨by simp only; rw [hcount, if_pos hin, ih1], fun j => ?_, fun h => by simp at h⟩
          simp only
          by_cases hj : j = a + n
          · subst hj
            have c2 : a ≤ a + n ∧ a + n < a + (n + 1) ∧ rbeg ≤ sp.row (a + n)
                ∧ sp.row (a + n) < rend := ⟨by omega, by omega, hb, hr⟩
            rw [Function.update_same, if_pos c2, ih1]
          · rw [Function.update_noteq hj, ih2 j]
            have : (a ≤ j ∧ j < a + (n + 1) ∧ rbeg ≤ sp.row j ∧ sp.row j < rend)
                ↔ (a ≤ j ∧ j < a + n ∧ rbeg ≤ sp.row j ∧ sp.row j < rend) := by omega
            simp only [this]
        · rw [if_neg hb]
          obtain ⟨k1, k2⟩ := hkeep (fun h => hb h.1)
          exact ⟨k1, k2, fun h => absurd hrun (by rw [h]; simp)⟩
      · rw [if_neg hr]
        obtain ⟨k1, k2⟩ := hkeep (fun h => hr h.2)
        exact ⟨k1, k2, fun _ => ⟨a + n, by omega, by omega, by omega⟩⟩
    · rw [if_neg hrun]
      have hfalse : s.run = false := by simpa using hrun
      obtain ⟨m0, h1, h2, h3⟩ := ih3 hfalse
      have hlt := hsorted m0 (a + n) h1 h2 (by omega)
      obtain ⟨k1, k2⟩ := hkeep (fun h => by omega)
      exact ⟨k1, k2, fun _ => ⟨m0, h1, by omega, h3⟩⟩

theorem blockRank_start (sp : Sparsity) (rbeg rend cbeg : ℕ) :
    blockRank sp rbeg rend cbeg (sp.colind cbeg) = 0 := by
  unfold blockRank
  have h := count_of_none (inBlock sp rbeg rend cbeg) 0 (sp.colind cbeg)
    (fun k _ hk hb => by
      have := hb.1
      omega)
  rw [Nat.zero_add] at h
  rw [h]
  rfl

/-- The outer loop of `casadi_set_sub` over the `n` columns from `cbeg` on. -/
theorem set_sub_cols (y x : Vec) (sp : Sparsity) (rbeg rend cbeg : ℕ) (n : ℕ)
    (hmono : ∀ c, cbeg ≤ c → c < cbeg + n → sp.colind c ≤ sp.colind (c + 1))
    (hsorted : ∀ c, cbeg ≤ c → c < cbeg + n → ∀ k k1, sp.colind c ≤ k → k < k1 →
      k1 < sp.colind (c + 1) → sp.row k < sp.row k1) :
    (forLoop n (fun t (st : Vec × ℕ) =>
        ((forRange (sp.colind (cbeg + t)) (sp.colind (cbeg + t + 1))
            (set_sub_body y sp rbeg rend) { x := st.1, used := st.2, run := true }).x,
         (forRange (sp.colind (cbeg + t)) (sp.colind (cbeg + t + 1))
            (set_sub_body y sp rbeg rend) { x := st.1, used := st.2, run := true }).used))
        (x, 0)).2 = blockRank sp rbeg rend cbeg (sp.colind (cbeg + n)) ∧
    (∀ j, (forLoop n (fun t (st : Vec × ℕ) =>
        ((forRange (sp.colind (cbeg + t)) (sp.colind (cbeg + t + 1))
            (set_sub_body y sp rbeg rend) { x := st.1, used := st.2, run := true }).x,
         (forRange (sp.colind (cbeg + t)) (sp.colind (cbeg + t + 1))
            (set_sub_body y sp rbeg rend) { x := st.1, used := st.2, run := true }).used))
        (x, 0)).1 j
      = if sp.colind cbeg ≤ j ∧ j < sp.colind (cbeg + n) ∧ rbeg ≤ sp.row j ∧ sp.row j < rend
        then y (blockRank sp rbeg rend cbeg j) else x j) ∧
    sp.colind cbeg ≤ sp.colind (cbeg + n) := by
  induction n with
  | zero =>
    refine ⟨(blockRank_start sp rbeg rend cbeg).symm, fun j => ?_, le_refl _⟩
    have : ¬ (sp.colind cbeg ≤ j ∧ j < sp.colind cbeg ∧ rbeg ≤ sp.row j ∧ sp.row j < rend) := by
      omega
    simp [forLoop, this]
  | succ n ih =>
    obtain ⟨ih1, ih2, ih3⟩ := ih (fun c h1 h2 => hmono c h1 (by omega))
      (fun c h1 h2 => hsorted c h1 (by omega))
    have hidx : cbeg + (n + 1) = cbeg + n + 1 := by omega
    rw [hidx]
    simp only [forLoop]
    generalize forLoop n (fun t (st : Vec × ℕ) =>
        ((forRange (sp.colind (cbeg + t)) (sp.colind (cbeg + t + 1))
            (set_sub_body y sp rbeg rend) { x := st.1, used := st.2, run := true }).x,
         (forRange (sp.colind (cbeg + t)) (sp.colind (cbeg + t + 1))
            (set_sub_body y sp rbeg rend) { x := st.1, used := st.2, run := true }).used))
        (x, 0) = st at ih1 ih2
    have hm := hmono (cbeg + n) (by omega) (by omega)
    have hlen : sp.colind (cbeg + n) + (sp.colind (cbeg + n + 1) - sp.colind (cbeg + n))
        = sp.colind (cbeg + n + 1) := by omega
    obtain ⟨c1, c2, _⟩ := set_sub_col y sp rbeg rend cbeg (sp.colind (cbeg + n)) st.1 ih3
      (sp.colind (cbeg + n + 1) - sp.colind (cbeg + n))
      (fun k k1 h1 h2 h3 => hsorted (cbeg + n) (by omega) (by omega) k k1 h1 h2 (by omega))
    rw [← ih1, hlen] at c1
    simp only [← ih1, hlen] at c2
    unfold forRange
    refine ⟨c1, fun j => ?_, by omega⟩
    rw [c2 j, ih2 j]
    by_cases hb : rbeg ≤ sp.row j ∧ sp.row j < rend
    · by_cases h1 : sp.colind (cbeg + n) ≤ j ∧ j < sp.colind (cbeg + n + 1)
      · rw [if_pos ⟨h1.1, h1.2, hb⟩, if_pos ⟨by omega, h1.2, hb⟩]
      · have e1 : ¬ (sp.colind (cbeg + n) ≤ j ∧ j < sp.colind (cbeg + n + 1) ∧ rbeg ≤ sp.row j
            ∧ sp.row j < rend) := fun h => h1 ⟨h.1, h.2.1⟩
        rw [if_neg e1]
        by_cases h2 : sp.colind cbeg ≤ j ∧ j < sp.colind (cbeg + n)
        · rw [if_pos ⟨h2.1, h2.2, hb⟩, if_pos ⟨h2.1, by omega, hb⟩]
        · have e2 : ¬ (sp.colind cbeg ≤ j ∧ j < sp.colind (cbeg + n) ∧ rbeg ≤ sp.row j
              ∧ sp.row j < rend) := fun h => h2 ⟨h.1, h.2.1⟩
          have e3 : ¬ (sp.colind cbeg ≤ j ∧ j < sp.colind (cbeg + n + 1) ∧ rbeg ≤ sp.row j
              ∧ sp.row j < rend) := by
            intro h
            have := h.2.1
            have := h.1
            omega
          rw [if_neg e2, if_neg e3]
    · have e1 : ∀ a b : ℕ, ¬ (a ≤ j ∧ j < b ∧ rbeg ≤ sp.row j ∧ sp.row j < rend) :=
        fun a b h => hb h.2.2
      rw [if_neg (e1 _ _), if_neg (e1 _ _), if_neg (e1 _ _)]

/-- The function `casadi_set_sub` on a pattern whose column offsets do not decrease and whose
rows increase within each column: an entry of a column of `[cbeg, cend)` with a row of
`[rbeg, rend)` receives the value of `y` at its rank in the block, and every other entry is
kept. -/
theorem set_sub_spec (y x : Vec) (sp : Sparsity) (rbeg rend cbeg cend : ℕ) (hc : cbeg ≤ cend)
    (hmono : ∀ c, cbeg ≤ c → c < cend → sp.colind c ≤ sp.colind (c + 1))
    (hsorted : ∀ c, cbeg ≤ c → c < cend → ∀ k k1, sp.colind c ≤ k → k < k1 →
      k1 < sp.colind (c + 1) → sp.row k < sp.row k1) (j : ℕ) :
    casadi_set_sub y x sp rbeg rend cbeg cend j
      = if sp.colind cbeg ≤ j ∧ j < sp.colind cend ∧ rbeg ≤ sp.row j ∧ sp.row j < rend
        then y (blockRank sp rbeg rend cbeg j) else x j := by
  have hlen : cbeg + (cend - cbeg) = cend := by omega
  obtain ⟨_, h2, _⟩ := set_sub_cols y x sp rbeg rend cbeg (cend - cbeg)
    (fun c h1 h2 => hmono c h1 (by omega)) (fun c h1 h2 => hsorted c h1 (by omega))
  rw [hlen] at h2
  rw [casadi_set_sub_eq]
  exact h2 j

/-! ## The assembly of the KKT matrix -/

theorem kkt_rowH {C : Conic} (h : IsKktPattern C) (c : ℕ) (hc : c < C.nx) (p : ℕ)
    (h1 : C.H_.colind c + C.A_.colind c ≤ p) (h2 : p < C.A_.colind c + C.H_.colind (c + 1)) :
    C.kkt_.row p = C.H_.row (p - C.A_.colind c) := by
  have e : C.A_.colind c + (p - C.A_.colind c) = p := by omega
  have := h.rowH c hc (p - C.A_.colind c) (by omega) (by omega)
  rw [e] at this
  exact this

theorem kkt_rowA {C : Conic} (h : IsKktPattern C) (c : ℕ) (hc : c < C.nx) (p : ℕ)
    (h1 : C.A_.colind c + C.H_.colind (c + 1) ≤ p)
    (h2 : p < C.H_.colind (c + 1) + C.A_.colind (c + 1)) :
    C.kkt_.row p = C.nx + C.A_.row (p - C.H_.colind (c + 1)) := by
  have e : C.H_.colind (c + 1) + (p - C.H_.colind (c + 1)) = p := by omega
  have := h.rowA c hc (p - C.H_.colind (c + 1)) (by omega) (by omega)
  rw [e] at this
  exact this

theorem kkt_rowT {C : Conic} (h : IsKktPattern C) (j : ℕ) (hj : j < C.na) (p : ℕ)
    (h1 : C.H_.colind C.nx + C.A_.colind C.nx + C.AT_.colind j ≤ p)
    (h2 : p < C.H_.colind C.nx + C.A_.colind C.nx + C.AT_.colind (j + 1)) :
    C.kkt_.row p = C.AT_.row (p - (C.H_.colind C.nx + C.A_.colind C.nx)) := by
  have e : C.H_.colind C.nx + C.A_.colind C.nx + (p - (C.H_.colind C.nx + C.A_.colind C.nx))
      = p := by omega
  have := h.rowT j hj (p - (C.H_.colind C.nx + C.A_.colind C.nx)) (by omega) (by omega)
  rw [e] at this
  exact this

theorem kkt_mono {C : Conic} (h : IsKktPattern C) (c : ℕ) (hc : c < C.nx + C.na) :
    C.kkt_.colind c ≤ C.kkt_.colind (c + 1) := by
  by_cases hx : c < C.nx
  · rw [h.colx c (by omega), h.colx (c + 1) (by omega)]
    have := h.monoH c hx
    have := h.monoA c hx
    omega
  · obtain ⟨j, rfl⟩ : ∃ j, c = C.nx + j := ⟨c - C.nx, by omega⟩
    have e : C.nx + j + 1 = C.nx + (j + 1) := by omega
    rw [e, h.cola j (by omega), h.cola (j + 1) (by omega)]
    have := h.monoT j (by omega)
    omega

theorem kkt_sorted {C : Conic} (h : IsKktPattern C) (c : ℕ) (hc : c < C.nx + C.na)
    (p p1 : ℕ) (h1 : C.kkt_.colind c ≤ p) (h2 : p < p1) (h3 : p1 < C.kkt_.colind (c + 1)) :
    C.kkt_.row p < C.kkt_.row p1 := by
  by_cases hx : c < C.nx
  · rw [h.colx c (by omega)] at h1
    rw [h.colx (c + 1) (by omega)] at h3
    have mH := h.monoH c hx
    have mA := h.monoA c hx
    by_cases hp1 : p1 < C.A_.colind c + C.H_.colind (c + 1)
    · rw [kkt_rowH h c hx p h1 (by omega), kkt_rowH h c hx p1 (by omega) hp1]
      exact h.sortedH c hx _ _ (by omega) (by omega) (by omega)
    · by_cases hp : p < C.A_.colind c + C.H_.colind (c + 1)
      · rw [kkt_rowH h c hx p h1 hp, kkt_rowA h c hx p1 (by omega) h3]
        have := h.boundH c hx (p - C.A_.colind c) (by omega) (by omega)
        omega
      · rw [kkt_rowA h c hx p (by omega) (by omega), kkt_rowA h c hx p1 (by omega) h3]
        have := h.sortedA c hx (p - C.H_.colind (c + 1)) (p1 - C.H_.colind (c + 1)) (by omega)
          (by omega) (by omega)
        omega
  · obtain ⟨j, rfl⟩ : ∃ j, c = C.nx + j := ⟨c - C.nx, by omega⟩
    have e : C.nx + j + 1 = C.nx + (j + 1) := by omega
    rw [h.cola j (by omega)] at h1
    rw [e, h.cola (j + 1) (by omega)] at h3
    rw [kkt_rowT h j (by omega) p h1 (by omega), kkt_rowT h j (by omega) p1 (by omega) h3]
    exact h.sortedT j (by omega) _ _ (by omega) (by omega) (by omega)

theorem kkt_colind_zero {C : Conic} (h : IsKktPattern C) : C.kkt_.colind 0 = 0 := by
  rw [h.colx 0 (Nat.zero_le _), h.startH, h.startA]

/-- The entries of the top-left block stored before entry `A_.colind c + k`, the place in
`kkt_` of entry `k` of column `c` of `H_`, are `k` in number. -/
theorem rankH {C : Conic} (h : IsKktPattern C) (c : ℕ) (hc : c ≤ C.nx) :
    blockRank C.kkt_ 0 C.nx 0 (C.H_.colind c + C.A_.colind c) = C.H_.colind c ∧
    ∀ k, c < C.nx → C.H_.colind c ≤ k → k ≤ C.H_.colind (c + 1) →
      blockRank C.kkt_ 0 C.nx 0 (C.A_.colind c + k) = k := by
  have hmid : ∀ c, c < C.nx →
      blockRank C.kkt_ 0 C.nx 0 (C.H_.colind c + C.A_.colind c) = C.H_.colind c →
      ∀ k, C.H_.colind c ≤ k → k ≤ C.H_.colind (c + 1) →
        blockRank C.kkt_ 0 C.nx 0 (C.A_.colind c + k) = k := by
    intro c hcx hcol k hk1 hk2
    have hall := count_of_all (inBlock C.kkt_ 0 C.nx 0) (C.H_.colind c + C.A_.colind c)
      (k - C.H_.colind c) (fun p hp1 hp2 => by
        refine ⟨by rw [kkt_colind_zero h]; omega, Nat.zero_le _, ?_⟩
        rw [kkt_rowH h c hcx p hp1 (by omega)]
        exact h.boundH c hcx _ (by omega) (by omega))
    have e : C.H_.colind c + C.A_.colind c + (k - C.H_.colind c) = C.A_.colind c + k := by omega
    unfold blockRank at hcol ⊢
    rw [e, hcol] at hall
    rw [hall]
    omega
  induction c with
  | zero =>
    refine ⟨?_, fun k hcx => hmid 0 hcx ?_ k⟩
    all_goals
      rw [h.startH, h.startA]
      rfl
  | succ c ih =>
    obtain ⟨ihc, _⟩ := ih (by omega)
    have hcx : c < C.nx := by omega
    have mH := h.monoH c hcx
    have mA := h.monoA c hcx
    have part1 := hmid c hcx ihc (C.H_.colind (c + 1)) mH (le_refl _)
    have part2 := count_of_none (inBlock C.kkt_ 0 C.nx 0)
      (C.A_.colind c + C.H_.colind (c + 1)) (C.A_.colind (c + 1) - C.A_.colind c)
      (fun p hp1 hp2 hP => by
        have := hP.2.2
        rw [kkt_rowA h c hcx p hp1 (by omega)] at this
        omega)
    have e : C.A_.colind c + C.H_.colind (c + 1) + (C.A_.colind (c + 1) - C.A_.colind c)
        = C.H_.colind (c + 1) + C.A_.colind (c + 1) := by omega
    have hcol : blockRank C.kkt_ 0 C.nx 0 (C.H_.colind (c + 1) + C.A_.colind (c + 1))
        = C.H_.colind (c + 1) := by
      unfold blockRank at part1 ⊢
      rw [e, part1] at part2
      exact part2
    exact ⟨hcol, fun k hcx1 => hmid (c + 1) hcx1 hcol k⟩

/-- The entries of the bottom-left block stored before entry `H_.colind (c+1) + k`, the place
in `kkt_` of entry `k` of column `c` of `A_`, are `k` in number. -/
theorem rankA {C : Conic} (h : IsKktPattern C) (c : ℕ) (hc : c ≤ C.nx) :
    blockRank C.kkt_ C.nx (C.nx + C.na) 0 (C.H_.colind c + C.A_.colind c) = C.A_.colind c ∧
    ∀ k, c < C.nx → C.A_.colind c ≤ k → k ≤ C.A_.colind (c + 1) →
      blockRank C.kkt_ C.nx (C.nx + C.na) 0 (C.H_.colind (c + 1) + k) = k := by
  have hmid : ∀ c, c < C.nx →
      blockRank C.kkt_ C.nx (C.nx + C.na) 0 (C.H_.colind c + C.A_.colind c) = C.A_.colind c →
      ∀ k, C.A_.colind c ≤ k → k ≤ C.A_.colind (c + 1) →
        blockRank C.kkt_ C.nx (C.nx + C.na) 0 (C.H_.colind (c + 1) + k) = k := by
    intro c hcx hcol k hk1 hk2
    have mH := h.monoH c hcx
    have hnone := count_of_none (inBlock C.kkt_ C.nx (C.nx + C.na) 0)
      (C.H_.colind c + C.A_.colind c) (C.H_.colind (c + 1) - C.H_.colind c)
      (fun p hp1 hp2 hP => by
        have := hP.2.1
        rw [kkt_rowH h c hcx p hp1 (by omega)] at this
        have := h.boundH c hcx (p - C.A_.colind c) (by omega) (by omega)
        omega)
    have e1 : C.H_.colind c + C.A_.colind c + (C.H_.colind (c + 1) - C.H_.colind c)
        = C.A_.colind c + C.H_.colind (c + 1) := by omega
    have hall := count_of_all (inBlock C.kkt_ C.nx (C.nx + C.na) 0)
      (C.A_.colind c + C.H_.colind (c + 1)) (k - C.A_.colind c) (fun p hp1 hp2 => by
        refine ⟨by rw [kkt_colind_zero h]; omega, ?_, ?_⟩
        · rw [kkt_rowA h c hcx p hp1 (by omega)]
          omega
        · rw [kkt_rowA h c hcx p hp1 (by omega)]
          have := h.boundA c hcx (p - C.H_.colind (c + 1)) (by omega) (by omega)
          omega)
    have e2 : C.A_.colind c + C.H_.colind (c + 1) + (k - C.A_.colind c)
        = C.H_.colind (c + 1) + k := by omega
    unfold blockRank at hcol ⊢
    rw [e1, hcol] at hnone
    rw [e2, hnone] at hall
    rw [hall]
    omega
  induction c with
  | zero =>
    refine ⟨?_, fun k hcx => hmid 0 hcx ?_ k⟩
    all_goals
      rw [h.startH, h.startA]
      rfl
  | succ c ih =>
    obtain ⟨ihc, _⟩ := ih (by omega)
    have hcx : c < C.nx := by omega
    have hcol := hmid c hcx ihc (C.A_.colind (c + 1)) (h.monoA c hcx) (le_refl _)
    exact ⟨hcol, fun k hcx1 => hmid (c + 1) hcx1 hcol k⟩

/-- The entries of the top-right block stored before the place in `kkt_` of entry `k` of
column `j` of `AT_` are `k` in number. -/
theorem rankT {C : Conic} (h : IsKktPattern C) (j : ℕ) (hj : j ≤ C.na) :
    blockRank C.kkt_ 0 C.nx C.nx (C.H_.colind C.nx + C.A_.colind C.nx + C.AT_.colind j)
      = C.AT_.colind j ∧
    ∀ k, j < C.na → C.AT_.colind j ≤ k → k ≤ C.AT_.colind (j + 1) →
      blockRank C.kkt_ 0 C.nx C.nx (C.H_.colind C.nx + C.A_.colind C.nx + k) = k := by
  have hmid : ∀ j, j < C.na →
      blockRank C.kkt_ 0 C.nx C.nx (C.H_.colind C.nx + C.A_.colind C.nx + C.AT_.colind j)
        = C.AT_.colind j →
      ∀ k, C.AT_.colind j ≤ k → k ≤ C.AT_.colind (j + 1) →
        blockRank C.kkt_ 0 C.nx C.nx (C.H_.colind C.nx + C.A_.colind C.nx + k) = k := by
    intro j hjx hcol k hk1 hk2
    have hall := count_of_all (inBlock C.kkt_ 0 C.nx C.nx)
      (C.H_.colind C.nx + C.A_.colind C.nx + C.AT_.colind j) (k - C.AT_.colind j)
      (fun p hp1 hp2 => by
        refine ⟨by rw [h.colx C.nx (le_refl _)]; omega, Nat.zero_le _, ?_⟩
        rw [kkt_rowT h j hjx p hp1 (by omega)]
        exact h.boundT j hjx _ (by omega) (by omega))
    have e : C.H_.colind C.nx + C.A_.colind C.nx + C.AT_.colind j + (k - C.AT_.colind j)
        = C.H_.colind C.nx + C.A_.colind C.nx + k := by omega
    unfold blockRank at hcol ⊢
    rw [e, hcol] at hall
    rw [hall]
    omega
  induction j with
  | zero =>
    have h0 : blockRank C.kkt_ 0 C.nx C.nx
        (C.H_.colind C.nx + C.A_.colind C.nx + C.AT_.colind 0) = C.AT_.colind 0 := by
      have := blockRank_start C.kkt_ 0 C.nx C.nx
      rw [h.colx C.nx (le_refl _)] at this
      rw [h.startT, Nat.add_zero]
      exact this
    exact ⟨h0, fun k hjx => hmid 0 hjx h0 k⟩
  | succ j ih =>
    obtain ⟨ihj, _⟩ := ih (by omega)
    have hjx : j < C.na := by omega
    have hcol := hmid j hjx ihj (C.AT_.colind (j + 1)) (h.monoT j hjx) (le_refl _)
    exact ⟨hcol, fun k hjx1 => hmid (j + 1) hjx1 hcol k⟩

theorem assemble_eq (C : Conic) (A : Args) :
    assemble C A = casadi_set_sub (casadi_trans A.a C.A_ fresh C.AT_)
      (casadi_set_sub A.a (casadi_set_sub A.h fresh C.kkt_ 0 C.nx 0 C.nx) C.kkt_ C.nx
        (C.nx + C.na) 0 C.nx) C.kkt_ 0 C.nx C.nx (C.nx + C.na) := rfl

/-- The three calls of `casadi_set_sub` on a KKT pattern, entry by entry. -/
theorem assemble_apply {C : Conic} (h : IsKktPattern C) (A : Args) (p : ℕ) :
    assemble C A p =
      if C.kkt_.colind C.nx ≤ p ∧ p < C.kkt_.colind (C.nx + C.na) ∧ C.kkt_.row p < C.nx then
        casadi_trans A.a C.A_ fresh C.AT_ (blockRank C.kkt_ 0 C.nx C.nx p)
      else if p < C.kkt_.colind C.nx ∧ C.nx ≤ C.kkt_.row p ∧ C.kkt_.row p < C.nx + C.na then
        A.a (blockRank C.kkt_ C.nx (C.nx + C.na) 0 p)
      else if p < C.kkt_.colind C.nx ∧ C.kkt_.row p < C.nx then
        A.h (blockRank C.kkt_ 0 C.nx 0 p)
      else fresh p := by
  have m1 : ∀ c, 0 ≤ c → c < C.nx → C.kkt_.colind c ≤ C.kkt_.colind (c + 1) :=
    fun c _ hc => kkt_mono h c (by omega)
  have s1 : ∀ c, 0 ≤ c → c < C.nx → ∀ k k1, C.kkt_.colind c ≤ k → k < k1 →
      k1 < C.kkt_.colind (c + 1) → C.kkt_.row k < C.kkt_.row k1 :=
    fun c _ hc => kkt_sorted h c (by omega)
  have m3 : ∀ c, C.nx ≤ c → c < C.nx + C.na → C.kkt_.colind c ≤ C.kkt_.colind (c + 1) :=
    fun c _ hc => kkt_mono h c hc
  have s3 : ∀ c, C.nx ≤ c → c < C.nx + C.na → ∀ k k1, C.kkt_.colind c ≤ k → k < k1 →
      k1 < C.kkt_.colind (c + 1) → C.kkt_.row k < C.kkt_.row k1 :=
    fun c _ hc => kkt_sorted h c hc
  have z := kkt_colind_zero h
  rw [assemble_eq, set_sub_spec _ _ C.kkt_ 0 C.nx C.nx (C.nx + C.na) (by omega) m3 s3 p,
    set_sub_spec _ _ C.kkt_ C.nx (C.nx + C.na) 0 C.nx (by omega) m1 s1 p,
    set_sub_spec _ _ C.kkt_ 0 C.nx 0 C.nx (by omega) m1 s1 p, z]
  by_cases c3 : C.kkt_.colind C.nx ≤ p ∧ p < C.kkt_.colind (C.nx + C.na) ∧ C.kkt_.row p < C.nx
  · rw [if_pos ⟨c3.1, c3.2.1, Nat.zero_le _, c3.2.2⟩, if_pos c3]
  · have n3 : ¬ (C.kkt_.colind C.nx ≤ p ∧ p < C.kkt_.colind (C.nx + C.na) ∧ 0 ≤ C.kkt_.row p
        ∧ C.kkt_.row p < C.nx) := fun hh => c3 ⟨hh.1, hh.2.1, hh.2.2.2⟩
    rw [if_neg n3, if_neg c3]
    by_cases c2 : p < C.kkt_.colind C.nx ∧ C.nx ≤ C.kkt_.row p ∧ C.kkt_.row p < C.nx + C.na
    · rw [if_pos ⟨Nat.zero_le _, c2⟩, if_pos c2]
    · have n2 : ¬ (0 ≤ p ∧ p < C.kkt_.colind C.nx ∧ C.nx ≤ C.kkt_.row p
          ∧ C.kkt_.row p < C.nx + C.na) := fun hh => c2 hh.2
      rw [if_neg n2, if_neg c2]
      by_cases c1 : p < C.kkt_.colind C.nx ∧ C.kkt_.row p < C.nx
      · rw [if_pos ⟨Nat.zero_le _, c1.1, Nat.zero_le _, c1.2⟩, if_pos c1]
      · have n1 : ¬ (0 ≤ p ∧ p < C.kkt_.colind C.nx ∧ 0 ≤ C.kkt_.row p ∧ C.kkt_.row p < C.nx) :=
          fun hh => c1 ⟨hh.2.1, hh.2.2.2⟩
        rw [if_neg n1, if_neg c1]

theorem kkt_colind_le_nx {C : Conic} (h : IsKktPattern C) (c : ℕ) (hc : c ≤ C.nx) :
    C.kkt_.colind c ≤ C.kkt_.colind C.nx :=
  colind_le C.kkt_.colind (C.nx + C.na) (fun c1 h1 => kkt_mono h c1 h1) c C.nx hc (by omega)

theorem assemble_H {C : Conic} (h : IsKktPattern C) (A : Args) (c k : ℕ) (hc : c < C.nx)
    (h1 : C.H_.colind c ≤ k) (h2 : k < C.H_.colind (c + 1)) :
    assemble C A (C.A_.colind c + k) = A.h k := by
  have hle := kkt_colind_le_nx h (c + 1) (by omega)
  rw [h.colx (c + 1) (by omega)] at hle
  have mA := h.monoA c hc
  have hrow := h.rowH c hc k h1 h2
  have hb := h.boundH c hc k h1 h2
  rw [assemble_apply h A, if_neg (by omega), if_neg (by omega),
    if_pos ⟨by omega, by omega⟩, ((rankH h c (by omega)).2 k hc h1 (by omega))]

theorem assemble_A {C : Conic} (h : IsKktPattern C) (A : Args) (c k : ℕ) (hc : c < C.nx)
    (h1 : C.A_.colind c ≤ k) (h2 : k < C.A_.colind (c + 1)) :
    assemble C A (C.H_.colind (c + 1) + k) = A.a k := by
  have hle := kkt_colind_le_nx h (c + 1) (by omega)
  rw [h.colx (c + 1) (by omega)] at hle
  have hrow := h.rowA c hc k h1 h2
  have hb := h.boundA c hc k h1 h2
  rw [assemble_apply h A, if_neg (by omega), if_pos ⟨by omega, by omega, by omega⟩,
    ((rankA h c (by omega)).2 k hc h1 (by omega))]

theorem assemble_T {C : Conic} (h : IsKktPattern C) (A : Args) (j k : ℕ) (hj : j < C.na)
    (h1 : C.AT_.colind j ≤ k) (h2 : k < C.AT_.colind (j + 1)) :
    assemble C A (C.H_.colind C.nx + C.A_.colind C.nx + k)
      = casadi_trans A.a C.A_ fresh C.AT_ k := by
  have hle := colind_le C.AT_.colind C.na h.monoT (j + 1) C.na (by omega) (le_refl _)
  have hx := h.colx C.nx (le_refl _)
  have ha := h.cola C.na (le_refl _)
  have hrow := h.rowT j hj k h1 h2
  have hb := h.boundT j hj k h1 h2
  rw [assemble_apply h A, if_pos ⟨by omega, by omega, by omega⟩,
    ((rankT h j (by omega)).2 k hj h1 (by omega))]

theorem colind_le_from (ci : IVec) (cbeg cend : ℕ)
    (hmono : ∀ c, cbeg ≤ c → c < cend → ci c ≤ ci (c + 1)) (a b : ℕ) (h1 : cbeg ≤ a)
    (hab : a ≤ b) (hb : b ≤ cend) : ci a ≤ ci b := by
  induction b with
  | zero =>
    have : a = 0 := by omega
    subst this
    exact le_refl _
  | succ b ih =>
    by_cases h : a = b + 1
    · subst h
      exact le_refl _
    · exact le_trans (ih (by omega) (by omega)) (hmono b (by omega) (by omega))

/-- An entry between the offsets of the columns `cbeg` and `cbeg + n` lies in one of these
columns. -/
theorem col_of_index (ci : IVec) (cbeg n k : ℕ) (h1 : ci cbeg ≤ k) (h2 : k < ci (cbeg + n)) :
    ∃ c, cbeg ≤ c ∧ c < cbeg + n ∧ ci c ≤ k ∧ k < ci (c + 1) := by
  induction n with
  | zero =>
    rw [Nat.add_zero] at h2
    omega
  | succ n ih =>
    by_cases h : k < ci (cbeg + n)
    · obtain ⟨c, c1, c2, c3, c4⟩ := ih h
      exact ⟨c, c1, by omega, c3, c4⟩
    · exact ⟨cbeg + n, by omega, by omega, by omega, h2⟩

theorem oneByOne_isKkt : IsKktPattern (oneByOne 1) where
  startH := rfl
  startA := rfl
  startT := rfl
  monoH := fun c hc => by
    have h1 : c < 1 := hc
    obtain rfl : c = 0 := by omega
    decide
  monoA := fun c hc => by
    have h1 : c < 1 := hc
    obtain rfl : c = 0 := by omega
    decide
  monoT := fun c hc => by
    have h1 : c < 1 := hc
    obtain rfl : c = 0 := by omega
    decide
  sortedH := fun c hc k k1 _ h2 h3 => by
    have h1 : c < 1 := hc
    obtain rfl : c = 0 := by omega
    have h4 : k1 < 1 := h3
    omega
  sortedA := fun c hc k k1 _ h2 h3 => by
    have h1 : c < 1 := hc
    obtain rfl : c = 0 := by omega
    have h4 : k1 < 1 := h3
    omega
  sortedT := fun c hc k k1 _ h2 h3 => by
    have h1 : c < 1 := hc
    obtain rfl : c = 0 := by omega
    have h4 : k1 < 1 := h3
    omega
  boundH := fun c hc k _ h3 => by
    have h1 : c < 1 := hc
    obtain rfl : c = 0 := by omega
    have h4 : k < 1 := h3
    obtain rfl : k = 0 := by omega
    decide
  boundA := fun c hc k _ h3 => by
    have h1 : c < 1 := hc
    obtain rfl : c = 0 := by omega
    have h4 : k < 1 := h3
    obtain rfl : k = 0 := by omega
    decide
  boundT := fun c hc k _ h3 => by
    have h1 : c < 1 := hc
    obtain rfl : c = 0 := by omega
    have h4 : k < 1 := h3
    obtain rfl : k = 0 := by omega
    decide
  colx := fun c hc => by
    have h1 : c ≤ 1 := hc
    interval_cases c <;> decide
  cola := fun c hc => by
    have h1 : c ≤ 1 := hc
    interval_cases c <;> decide
  rowH := fun c hc k _ h3 => by
    have h1 : c < 1 := hc
    obtain rfl : c = 0 := by omega
    have h4 : k < 1 := h3
    obtain rfl : k = 0 := by omega
    decide
  rowA := fun c hc k _ h3 => by
    have h1 : c < 1 := hc
    obtain rfl : c = 0 := by omega
    have h4 : k < 1 := h3
    obtain rfl : k = 0 := by omega
    decide
  rowT := fun c hc k _ h3 => by
    have h1 : c < 1 := hc
    obtain rfl : c = 0 := by omega
    have h4 : k < 1 := h3
    obtain rfl : k = 0 := by omega
    decide

/-! ## The claims -/

/-- C1: when the ratio test of one iteration completes without raising, the step length it
yields satisfies `0 ≤ tau ≤ 1`; and a `tau` computed at an entry of the scan (for a variable
or for a constraint) is stored as computed when it lies in `[0,1]` and makes the scan throw
when it does not: it is never clamped. -/
theorem ratio_test_tau_in_unit_interval (nx na : ℕ) (b : Bounds) (it : Iterate) (d : Step) :
    (∀ r, ratio_test nx na b it d = some r → 0 ≤ r.tau ∧ r.tau ≤ 1) ∧
    (∀ i s q, new_tau_x b it d i s = some q →
      (ratio_x b it d i s = none ↔ ¬ (0 ≤ q ∧ q ≤ 1)) ∧
      (∀ r, ratio_x b it d i s = some r → r.tau = q)) ∧
    (∀ i s q, new_tau_a nx b it d i s = some q →
      (ratio_a nx b it d i s = none ↔ ¬ (0 ≤ q ∧ q ≤ 1)) ∧
      (∀ r, ratio_a nx b it d i s = some r → r.tau = q)) := by
  refine ⟨fun r h => ?_, fun i s q hq => ?_, fun i s q hq => ?_⟩
  · have hinv := ratio_test_some_inv h
    exact ⟨hinv.tau_nonneg, hinv.tau_le_one⟩
  · exact ⟨(ratio_x_tau_of_some (r := s) hq).1, fun r => (ratio_x_tau_of_some hq).2⟩
  · exact ⟨(ratio_a_tau_of_some (r := s) hq).1, fun r => (ratio_a_tau_of_some hq).2⟩

/-- C1, on concrete inputs: the scan `scanBounds` returns `tau = 1/8`, which lies in `[0,1]`,
and the value 2 computed from `farState` makes the body of the scan throw. -/
theorem ratio_test_tau_in_unit_interval_witness :
    ratio_test 2 1 scanBounds scanIt scanStep = some scanResult ∧
    (0 ≤ scanResult.tau ∧ scanResult.tau ≤ 1) ∧
    new_tau_x farBounds farIt farStep 0 farState = some 2 ∧
    ratio_x farBounds farIt farStep 0 farState = none :=
  ⟨scan_eval,
   (ratio_test_tau_in_unit_interval 2 1 scanBounds scanIt scanStep).1 scanResult scan_eval,
   far_new_tau,
   ((ratio_test_tau_in_unit_interval 1 0 farBounds farIt farStep).2.1 0 farState 2
      far_new_tau).1.mpr (by norm_num)⟩

/-- C5, as the code has it: when the ratio test succeeds, every entry whose recorded step
length `w[k]` equals the final `tau` has an index `k ≤ tau_i`, and `tau_i` is -1 or is itself
such an entry: among the entries recorded at the minimal step length the reported index is
the last in scan order. -/
theorem ratio_test_reports_last_tie (nx na : ℕ) (b : Bounds) (it : Iterate) (d : Step)
    (r : Ratio) (h : ratio_test nx na b it d = some r) :
    (∀ k : ℕ, r.w k = r.tau → (k : ℤ) ≤ r.tau_i) ∧
    (r.tau_i = -1 ∨ ∃ k : ℕ, k < nx + na ∧ r.tau_i = (k : ℤ) ∧ r.w k = r.tau) := by
  have hinv := ratio_test_some_inv h
  refine ⟨fun k hk => ?_, ?_⟩
  · rcases hinv.recorded k with h1 | ⟨_, _, _, h2⟩
    · have := hinv.tau_nonneg
      rw [← hk, h1] at this
      norm_num at this
    · exact h2
  · rcases hinv.last with ⟨h1, _⟩ | ⟨k, hk, h1, h2⟩
    · exact Or.inl h1
    · exact Or.inr ⟨k, hk, h1, h2⟩

/-- C5, on the concrete scan `tieBounds`: both variables are recorded at 1/2 and the reported
index is 1. -/
theorem ratio_test_reports_last_tie_witness :
    ratio_test 2 0 tieBounds tieIt tieStep = some tieResult ∧
    (∀ k : ℕ, tieResult.w k = tieResult.tau → (k : ℤ) ≤ tieResult.tau_i) ∧
    (tieResult.tau_i = -1 ∨
      ∃ k : ℕ, k < 2 + 0 ∧ tieResult.tau_i = (k : ℤ) ∧ tieResult.w k = tieResult.tau) :=
  ⟨tie_eval, ratio_test_reports_last_tie 2 0 tieBounds tieIt tieStep tieResult tie_eval⟩

/-- C5 fails as stated: variables 0 and 1 both block at the minimal step length 1/2
(`w[0] = w[1] = tau = 1/2`), and the ratio test reports `tau_i = 1`, not the first of them. -/
theorem ratio_test_tie_not_first :
    (ratio_test 2 0 tieBounds tieIt tieStep).map (fun r => (r.tau, r.w 0, r.w 1, r.tau_i))
      = some (1 / 2, 1 / 2, 1 / 2, 1) := by
  decide!

/-- C2, as the code has it: `eval` checks no bound against the other. For a problem with
`lbx[i] > ubx[i]` the seeding makes variable `i` inactive (`lam_x[i] = 0`), the main loop
runs, and in exact arithmetic `eval` returns its outputs. -/
theorem eval_accepts_crossed_bounds (S : Solver) (C : Conic) (A : Args) (i : ℕ)
    (hi : i < C.nx) (h : optAt A.bnd.ubx i < optAt A.bnd.lbx i) :
    (seed C A).lam_xk i = 0 ∧ (eval S C A).isSome = true := by
  refine ⟨?_, eval_isSome S C A⟩
  rw [seed_lam_xk C A i hi, if_pos (ne_of_gt h)]

/-- C2, on the concrete problem `crossedArgs` (`lbx[0] = 1 > ubx[0] = 0`). -/
theorem eval_accepts_crossed_bounds_witness :
    (0 < (oneByOne 1).nx ∧ optAt crossedArgs.bnd.ubx 0 < optAt crossedArgs.bnd.lbx 0) ∧
    (seed (oneByOne 1) crossedArgs).lam_xk 0 = 0 ∧
    (eval solve2 (oneByOne 1) crossedArgs).isSome = true :=
  ⟨by decide!, eval_accepts_crossed_bounds solve2 (oneByOne 1) crossedArgs 0 (by decide!)
    (by decide!)⟩

/-- C2 fails as stated: on `crossedArgs`, where `lbx[0] = 1 > ubx[0] = 0`, the step of the
first iteration solves the KKT system and `eval` with `max_iter = 1` returns the outputs
`x = 0`, `f = 0`, `lam_x = 1/2`, `lam_a = 0`. -/
theorem eval_returns_with_crossed_bounds :
    optAt crossedArgs.bnd.ubx 0 < optAt crossedArgs.bnd.lbx 0 ∧
    kkt_solved (oneByOne 1)
      (calc_kktd (oneByOne 1) (assemble (oneByOne 1) crossedArgs) (seed (oneByOne 1) crossedArgs))
      (calc_rhs (oneByOne 1) crossedArgs (seed (oneByOne 1) crossedArgs))
      (newton_step solve2 (oneByOne 1) crossedArgs (assemble (oneByOne 1) crossedArgs)
        (seed (oneByOne 1) crossedArgs)).step ∧
    (eval solve2 (oneByOne 1) crossedArgs).map (fun r => (r.x 0, r.f, r.lam_x 0, r.lam_a 0))
      = some (0, some 0, 1 / 2, 0) := by
  decide!

/-- C3: for a padded pattern whose column offsets do not decrease, the matrix that is
factorized has, at every stored entry `k` of a column `c`: in a column `c < nx` with
`lam_x[c] ≠ 0` the value 1 on the diagonal and 0 elsewhere; in a column `c = nx + j` with
`lam_a[j] = 0` the value -1 on the diagonal and 0 elsewhere; in every other column the
value projected from the KKT matrix. -/
theorem kktd_active_set_columns (C : Conic) (kkt : Vec) (it : Iterate)
    (hmono : ∀ c, c < C.nx + C.na → C.kktd_.colind c ≤ C.kktd_.colind (c + 1))
    (c k : ℕ) (hc : c < C.nx + C.na)
    (hk1 : C.kktd_.colind c ≤ k) (hk2 : k < C.kktd_.colind (c + 1)) :
    calc_kktd C kkt it k =
      if c < C.nx then
        (if it.lam_xk c ≠ 0 then (if C.kktd_.row k = c then 1 else 0)
         else casadi_project kkt C.kkt_ fresh C.kktd_ fresh k)
      else
        (if it.lam_ak (c - C.nx) = 0 then (if C.kktd_.row k = c then -1 else 0)
         else casadi_project kkt C.kkt_ fresh C.kktd_ fresh k) := by
  unfold calc_kktd
  exact modify_kktd_apply C it.lam_xk it.lam_ak _ hmono c k hc hk1 hk2

/-- C3, on the pattern of `oneByOne` with the variable active and the constraint inactive:
entry 3 is the diagonal entry of column 1 and holds -1. -/
theorem kktd_active_set_columns_witness :
    ((∀ c, c < (oneByOne 1).nx + (oneByOne 1).na →
        (oneByOne 1).kktd_.colind c ≤ (oneByOne 1).kktd_.colind (c + 1)) ∧
      1 < (oneByOne 1).nx + (oneByOne 1).na ∧
      (oneByOne 1).kktd_.colind 1 ≤ 3 ∧ 3 < (oneByOne 1).kktd_.colind (1 + 1)) ∧
    calc_kktd (oneByOne 1) (ofList [5, 6, 7]) activeIt 3 = -1 := by
  refine ⟨by decide!, ?_⟩
  rw [kktd_active_set_columns (oneByOne 1) (ofList [5, 6, 7]) activeIt (by decide!) 1 3
    (by decide!) (by decide!) (by decide!)]
  decide!

/-- C6 fails on the code: on `atUpperArgs` the variable starts inactive at its upper bound
(`lbx = 0 ≤ x = 1 ≤ ubx = 1`, `lam_x = 0`), the step `dx = 1` solves the KKT system, the
ratio test finds no blocking entry (`tau = 1`, `tau_i = -1`) and the updated `x = 2`
exceeds `ubx = 1`. -/
theorem step_leaves_upper_bound :
    ((seed (oneByOne 1) atUpperArgs).lam_xk 0, (seed (oneByOne 1) atUpperArgs).xk 0,
      optAt atUpperArgs.bnd.lbx 0, optAt atUpperArgs.bnd.ubx 0) = (0, 1, 0, 1) ∧
    kkt_solved (oneByOne 1)
      (calc_kktd (oneByOne 1) (assemble (oneByOne 1) atUpperArgs) (seed (oneByOne 1) atUpperArgs))
      (calc_rhs (oneByOne 1) atUpperArgs (seed (oneByOne 1) atUpperArgs))
      (newton_step solve2 (oneByOne 1) atUpperArgs (assemble (oneByOne 1) atUpperArgs)
        (seed (oneByOne 1) atUpperArgs)).step ∧
    (newton_step solve2 (oneByOne 1) atUpperArgs (assemble (oneByOne 1) atUpperArgs)
        (seed (oneByOne 1) atUpperArgs)).step 0 = 1 ∧
    (ratio_test 1 1 atUpperArgs.bnd (seed (oneByOne 1) atUpperArgs)
      (newton_step solve2 (oneByOne 1) atUpperArgs (assemble (oneByOne 1) atUpperArgs)
        (seed (oneByOne 1) atUpperArgs))).map (fun r => (r.tau, r.tau_i)) = some (1, -1) ∧
    (eval solve2 (oneByOne 1) atUpperArgs).map (fun r => r.x 0) = some 2 := by
  decide!

/-- C7 fails on the code: on `hitUpperArgs` the inactive variable is blocked by its upper
bound (`tau = 1/2`, `tau_i = 0`, `upper = true`, and the updated `x = 1 = ubx`), but the
updated multiplier is `lam_x = -1`, the sign of a lower-active bound. -/
theorem upper_blocking_gives_negative_multiplier :
    ((seed (oneByOne 1) hitUpperArgs).lam_xk 0, optAt hitUpperArgs.bnd.ubx 0) = (0, 1) ∧
    kkt_solved (oneByOne 1)
      (calc_kktd (oneByOne 1) (assemble (oneByOne 1) hitUpperArgs)
        (seed (oneByOne 1) hitUpperArgs))
      (calc_rhs (oneByOne 1) hitUpperArgs (seed (oneByOne 1) hitUpperArgs))
      (newton_step solve2 (oneByOne 1) hitUpperArgs (assemble (oneByOne 1) hitUpperArgs)
        (seed (oneByOne 1) hitUpperArgs)).step ∧
    (ratio_test 1 1 hitUpperArgs.bnd (seed (oneByOne 1) hitUpperArgs)
      (newton_step solve2 (oneByOne 1) hitUpperArgs (assemble (oneByOne 1) hitUpperArgs)
        (seed (oneByOne 1) hitUpperArgs))).map (fun r => (r.tau, r.tau_i, r.upper))
      = some (1 / 2, 0, some true) ∧
    (eval solve2 (oneByOne 1) hitUpperArgs).map (fun r => (r.x 0, r.lam_x 0))
      = some (1, -1) := by
  decide!

/-- C8 fails on the code: on `freeArgs` the ratio test of the first iteration finds no
blocking entry (`tau = 1`, `tau_i = -1`), and the variable, inactive before the iteration
(`lam_x = 0`), has `lam_x = -2` after the update. -/
theorem full_step_changes_status :
    (seed (oneByOne 1) freeArgs).lam_xk 0 = 0 ∧
    kkt_solved (oneByOne 1)
      (calc_kktd (oneByOne 1) (assemble (oneByOne 1) freeArgs) (seed (oneByOne 1) freeArgs))
      (calc_rhs (oneByOne 1) freeArgs (seed (oneByOne 1) freeArgs))
      (newton_step solve2 (oneByOne 1) freeArgs (assemble (oneByOne 1) freeArgs)
        (seed (oneByOne 1) freeArgs)).step ∧
    (ratio_test 1 1 freeArgs.bnd (seed (oneByOne 1) freeArgs)
      (newton_step solve2 (oneByOne 1) freeArgs (assemble (oneByOne 1) freeArgs)
        (seed (oneByOne 1) freeArgs))).map (fun r => (r.tau, r.tau_i)) = some (1, -1) ∧
    (iteration solve2 (oneByOne 1) freeArgs (assemble (oneByOne 1) freeArgs)
      (seed (oneByOne 1) freeArgs)).map (fun s => (s.xk 0, s.lam_xk 0, s.lam_ak 0))
      = some (2, -2, 0) := by
  decide!

/-- C9 fails on the code: on `equalityArgs` (`lba = uba = 1`) and on the instance
`A = [1, 1]`, `lba = uba = [1]` of `sumArgs`, the constraint is seeded active
(`lam_a = -DBL_MIN`), the step of the first iteration solves the KKT system, the sign change
of the multiplier determines `tau` (`tau_i` is the constraint), and after the update
`lam_a = 0`: the equality is inactive at the start of the second iteration and in the
returned `lam_a`. -/
theorem equality_constraint_deactivated :
    (optAt equalityArgs.bnd.lba 0 = optAt equalityArgs.bnd.uba 0 ∧
     (seed (oneByOne 1) equalityArgs).lam_ak 0 = -DBL_MIN ∧
     kkt_solved (oneByOne 1)
      (calc_kktd (oneByOne 1) (assemble (oneByOne 1) equalityArgs)
        (seed (oneByOne 1) equalityArgs))
      (calc_rhs (oneByOne 1) equalityArgs (seed (oneByOne 1) equalityArgs))
      (newton_step solve2 (oneByOne 1) equalityArgs (assemble (oneByOne 1) equalityArgs)
        (seed (oneByOne 1) equalityArgs)).step ∧
     (ratio_test 1 1 equalityArgs.bnd (seed (oneByOne 1) equalityArgs)
      (newton_step solve2 (oneByOne 1) equalityArgs (assemble (oneByOne 1) equalityArgs)
        (seed (oneByOne 1) equalityArgs))).map (fun r => (r.tau, r.tau_i))
      = some (DBL_MIN / (1 + DBL_MIN), 1) ∧
     (iteration solve2 (oneByOne 1) equalityArgs (assemble (oneByOne 1) equalityArgs)
      (seed (oneByOne 1) equalityArgs)).map (fun s => s.lam_ak 0) = some 0 ∧
     (eval solve2 (oneByOne 1) equalityArgs).map (fun r => r.lam_a 0) = some 0 ∧
     (eval solve2 (oneByOne 2) equalityArgs).map (fun r => r.lam_a 0) = some 0) ∧
    (optAt sumArgs.bnd.lba 0 = optAt sumArgs.bnd.uba 0 ∧
     (seed twoVarsOneCon sumArgs).lam_ak 0 = -DBL_MIN ∧
     kkt_solved twoVarsOneCon
      (calc_kktd twoVarsOneCon (assemble twoVarsOneCon sumArgs) (seed twoVarsOneCon sumArgs))
      (calc_rhs twoVarsOneCon sumArgs (seed twoVarsOneCon sumArgs)) sumStep ∧
     (ratio_test 2 1 sumArgs.bnd (seed twoVarsOneCon sumArgs)
      (calc_step twoVarsOneCon sumArgs sumStep)).map (fun r => (r.tau, r.tau_i))
      = some (DBL_MIN / (3 / 2 + DBL_MIN), 2) ∧
     (eval (fun _ _ => sumStep) twoVarsOneCon sumArgs).map (fun r => r.lam_a 0) = some 0) := by
  decide!

/-- C10: after the seeding of the active set, every variable with `lbx[i] = ubx[i]` and
every constraint with `lba[j] = uba[j]` has a nonzero multiplier, whatever the initial
guess (an absent bound reads as 0). -/
theorem seed_equalities_are_active (C : Conic) (A : Args) :
    (∀ i, i < C.nx → optAt A.bnd.lbx i = optAt A.bnd.ubx i → (seed C A).lam_xk i ≠ 0) ∧
    (∀ j, j < C.na → optAt A.bnd.lba j = optAt A.bnd.uba j → (seed C A).lam_ak j ≠ 0) := by
  have hpos := DBL_MIN_pos
  constructor
  · intro i hi h
    rw [seed_lam_xk C A i hi, if_neg (not_not.mpr h)]
    split_ifs
    · exact ne_of_lt (lt_of_le_of_lt (min_le_right _ _) (by linarith))
    · exact ne_of_gt (lt_of_lt_of_le hpos (le_max_right _ _))
  · intro j hj h
    rw [seed_lam_ak C A j hj, if_neg (not_not.mpr h)]
    split_ifs
    · exact ne_of_lt (lt_of_le_of_lt (min_le_right _ _) (by linarith))
    · exact ne_of_gt (lt_of_lt_of_le hpos (le_max_right _ _))

/-- C10, on `equalityArgs` (`lba = uba = 1`) and on a variable fixed by `lbx = ubx = 3`. -/
theorem seed_equalities_are_active_witness :
    (optAt (qp1 0 3 3 1 1 5).bnd.lbx 0 = optAt (qp1 0 3 3 1 1 5).bnd.ubx 0 ∧
      (seed (oneByOne 1) (qp1 0 3 3 1 1 5)).lam_xk 0 ≠ 0) ∧
    (optAt equalityArgs.bnd.lba 0 = optAt equalityArgs.bnd.uba 0 ∧
      (seed (oneByOne 1) equalityArgs).lam_ak 0 ≠ 0) :=
  ⟨⟨by decide!, (seed_equalities_are_active (oneByOne 1) (qp1 0 3 3 1 1 5)).1 0 (by decide!)
      (by decide!)⟩,
   ⟨by decide!, (seed_equalities_are_active (oneByOne 1) equalityArgs).2 0 (by decide!)
      (by decide!)⟩⟩

/-- C11, as the code has it: after the seeding of the active set, a variable or constraint
with `lb ≠ ub` is inactive (its multiplier is 0), whatever its initial multiplier. -/
theorem seed_inequalities_are_inactive (C : Conic) (A : Args) :
    (∀ i, i < C.nx → optAt A.bnd.lbx i ≠ optAt A.bnd.ubx i → (seed C A).lam_xk i = 0) ∧
    (∀ j, j < C.na → optAt A.bnd.lba j ≠ optAt A.bnd.uba j → (seed C A).lam_ak j = 0) := by
  constructor
  · intro i hi h
    rw [seed_lam_xk C A i hi, if_pos h]
  · intro j hj h
    rw [seed_lam_ak C A j hj, if_pos h]

/-- C11, on `guessArgs`, whose bounds differ and whose initial multipliers are 3 and -2. -/
theorem seed_inequalities_are_inactive_witness :
    (optAt guessArgs.bnd.lbx 0 ≠ optAt guessArgs.bnd.ubx 0 ∧
      (seed (oneByOne 1) guessArgs).lam_xk 0 = 0) ∧
    (optAt guessArgs.bnd.lba 0 ≠ optAt guessArgs.bnd.uba 0 ∧
      (seed (oneByOne 1) guessArgs).lam_ak 0 = 0) :=
  ⟨⟨by decide!, (seed_inequalities_are_inactive (oneByOne 1) guessArgs).1 0 (by decide!)
      (by decide!)⟩,
   ⟨by decide!, (seed_inequalities_are_inactive (oneByOne 1) guessArgs).2 0 (by decide!)
      (by decide!)⟩⟩

/-- C11 fails as stated: on `guessArgs` the variable has `lbx = 0 ≠ ubx = 1` and the initial
multiplier `lam_x0 = 3`, the constraint has `lba = -1 ≠ uba = 1` and `lam_a0 = -2`, and both
are inactive after the seeding. -/
theorem seed_drops_initial_multiplier :
    (optAt guessArgs.bnd.lbx 0, optAt guessArgs.bnd.ubx 0, optAt guessArgs.lam_x0 0,
      (seed (oneByOne 1) guessArgs).lam_xk 0) = (0, 1, 3, 0) ∧
    (optAt guessArgs.bnd.lba 0, optAt guessArgs.bnd.uba 0, optAt guessArgs.lam_a0 0,
      (seed (oneByOne 1) guessArgs).lam_ak 0) = (-1, 1, -2, 0) := by
  decide!

/-- C17: when the ratio test succeeds and the final `tau` equals the step length recorded
for an active variable `i` (or an active constraint `j`), which is its `-lam/dlam`, the
multiplier after the update is exactly 0. -/
theorem sign_change_deactivates (C : Conic) (A : Args) (it : Iterate) (d : Step) (r : Ratio)
    (h : ratio_test C.nx C.na A.bnd it d = some r) :
    (∀ i, i < C.nx → it.lam_xk i ≠ 0 → r.w i = r.tau →
      r.tau = -it.lam_xk i / d.dlam_x i ∧ (take_step C A it d r.tau).lam_xk i = 0) ∧
    (∀ j, j < C.na → it.lam_ak j ≠ 0 → r.w (C.nx + j) = r.tau →
      r.tau = -it.lam_ak j / d.step (C.nx + j) ∧ (take_step C A it d r.tau).lam_ak j = 0) := by
  have hrec := ratio_test_dual_recorded h
  have hinv := ratio_test_some_inv h
  have hne : r.tau ≠ -1 := by
    intro e
    have := hinv.tau_nonneg
    rw [e] at this
    norm_num at this
  constructor
  · intro i hi ha hw
    obtain ⟨hd, hq⟩ := hrec.1 i hi ha (by rw [hw]; exact hne)
    rw [hw] at hq
    refine ⟨hq, ?_⟩
    simp only [take_step]
    rw [casadi_axpy_apply, if_pos hi, hq]
    field_simp
  · intro j hj ha hw
    obtain ⟨hd, hq⟩ := hrec.2 j ha (by rw [hw]; exact hne)
    rw [hw] at hq
    refine ⟨hq, ?_⟩
    simp only [take_step]
    rw [casadi_axpy_apply, if_pos hj, hq]
    simp only [shift]
    field_simp

/-- C18: in exact arithmetic the ratio test returns for every iterate, step, bounds and
status; each step length computed in a branch of the scan, from a state with `tau ≥ 0`,
has a nonzero divisor and lies between 0 and the current `tau`. -/
theorem ratio_test_never_raises (nx na : ℕ) (b : Bounds) (it : Iterate) (d : Step) :
    (ratio_test nx na b it d).isSome = true ∧
    (∀ i s q, 0 ≤ s.tau → new_tau_x b it d i s = some q →
      divisor_x it d i ≠ 0 ∧ 0 ≤ q ∧ q ≤ s.tau) ∧
    (∀ i s q, 0 ≤ s.tau → new_tau_a nx b it d i s = some q →
      divisor_a nx it d i ≠ 0 ∧ 0 ≤ q ∧ q ≤ s.tau) := by
  refine ⟨?_, fun i s q h0 hq => ⟨new_tau_x_divisor hq, new_tau_x_bound hq h0⟩,
    fun i s q h0 hq => ⟨new_tau_a_divisor hq, new_tau_a_bound hq h0⟩⟩
  obtain ⟨r, hr, _⟩ := ratio_test_inv nx na b it d
  simp [hr]

/-- C15 fails on the code: with one variable and two constraints (`oneVarTwoCons`,
`overlapArgs`) the entry `gk[1]` is `step[0]`. At the seeded iterate constraint 1 is
lower-active (`lam_a[1] < 0`) with `(Ax)[1] = gk[1] = 3` and `lba[1] = 5`, so its row of the
negated residual is `-((Ax)[1] - lba[1]) = 2`; lines 395-397 store the gradient entry
`10 - DBL_MIN` in `step[0]` before line 398 copies `gk[1]`, and the row that `eval` passes to
the KKT solve is `-(10 - DBL_MIN - 5) = DBL_MIN - 5`. -/
theorem rhs_reads_overwritten_gk :
    (seed oneVarTwoCons overlapArgs).lam_ak 1 < 0 ∧
    calc_g oneVarTwoCons overlapArgs (seed oneVarTwoCons overlapArgs).xk fresh 1 = 3 ∧
    (seed oneVarTwoCons overlapArgs).gk 1 = 3 ∧
    optAt overlapArgs.bnd.lba 1 = 5 ∧
    lagr_grad oneVarTwoCons overlapArgs (seed oneVarTwoCons overlapArgs) 0 = 10 - DBL_MIN ∧
    calc_rhs oneVarTwoCons overlapArgs (seed oneVarTwoCons overlapArgs) (oneVarTwoCons.nx + 1)
      = DBL_MIN - 5 ∧
    calc_rhs oneVarTwoCons overlapArgs (seed oneVarTwoCons overlapArgs) (oneVarTwoCons.nx + 1)
      ≠ -((seed oneVarTwoCons overlapArgs).gk 1 - optAt overlapArgs.bnd.lba 1) := by
  refine ⟨?_, ?_, ?_, ?_, ?_, ?_, ?_⟩
  · decide!
  · decide!
  · decide!
  · decide!
  · decide!
  · decide!
  · decide!

/-- C12 fails on the code: on `bowlArgs 2` (`H = 2 I`, minimiser `(1, 1)`, cost -2) the step
of the first iteration solves the KKT system and reaches the minimiser, but `eval` with
`max_iter = 1` returns `lam_x = (-2, -2)`, and with `max_iter = 2` it returns `x = (0, 0)`;
on `bowlArgs 1` (`H = I`, minimiser `(2, 2)`, cost -4) `eval` with `max_iter = 1` returns
`x = (2, 2)`, `f = -4` and `lam_x = (-2, -2)`. -/
theorem unconstrained_solve_leaves_multipliers :
    kkt_solved (twoVars 1)
      (calc_kktd (twoVars 1) (assemble (twoVars 1) (bowlArgs 2)) (seed (twoVars 1) (bowlArgs 2)))
      (calc_rhs (twoVars 1) (bowlArgs 2) (seed (twoVars 1) (bowlArgs 2)))
      (newton_step solveDiag (twoVars 1) (bowlArgs 2) (assemble (twoVars 1) (bowlArgs 2))
        (seed (twoVars 1) (bowlArgs 2))).step ∧
    (eval solveDiag (twoVars 1) (bowlArgs 2)).map
      (fun r => (r.x 0, r.x 1, r.f, r.lam_x 0, r.lam_x 1)) = some (1, 1, some (-2), -2, -2) ∧
    (eval solveDiag (twoVars 2) (bowlArgs 2)).map
      (fun r => (r.x 0, r.x 1, r.f, r.lam_x 0, r.lam_x 1)) = some (0, 0, some 0, 0, 0) ∧
    (eval solveDiag (twoVars 1) (bowlArgs 1)).map
      (fun r => (r.x 0, r.x 1, r.f, r.lam_x 0, r.lam_x 1)) = some (2, 2, some (-4), -2, -2) := by
  refine ⟨?_, ?_, ?_, ?_⟩
  · decide!
  · decide!
  · decide!
  · decide!

/-- C13 fails on the code when `verbose_` is set: the block of lines 278-289 passes the four
bound vectors to `print_vector` without a test for a null pointer, so on `oneByOne` and
`freeArgs` (any KKT solver) `eval` has no result with any one of `lbx`, `ubx`, `lba`, `uba`
absent, and returns with that vector present and zero. With `verbose_` off the two calls
return the same. -/
theorem verbose_reads_absent_bound (S : Solver) :
    eval_verbose true S (oneByOne 1) (withBounds freeArgs { freeArgs.bnd with lbx := none })
      = none ∧
    eval_verbose true S (oneByOne 1) (withBounds freeArgs { freeArgs.bnd with ubx := none })
      = none ∧
    eval_verbose true S (oneByOne 1) (withBounds freeArgs { freeArgs.bnd with lba := none })
      = none ∧
    eval_verbose true S (oneByOne 1) (withBounds freeArgs { freeArgs.bnd with uba := none })
      = none ∧
    (eval_verbose true S (oneByOne 1)
      (withBounds freeArgs { freeArgs.bnd with lbx := some fresh })).isSome = true ∧
    (eval_verbose true S (oneByOne 1)
      (withBounds freeArgs { freeArgs.bnd with ubx := some fresh })).isSome = true ∧
    (eval_verbose true S (oneByOne 1)
      (withBounds freeArgs { freeArgs.bnd with lba := some fresh })).isSome = true ∧
    (eval_verbose true S (oneByOne 1)
      (withBounds freeArgs { freeArgs.bnd with uba := some fresh })).isSome = true ∧
    eval_verbose false S (oneByOne 1) (withBounds freeArgs { freeArgs.bnd with lbx := none })
      = eval_verbose false S (oneByOne 1)
          (withBounds freeArgs { freeArgs.bnd with lbx := some fresh }) := by
  refine ⟨rfl, rfl, rfl, rfl, ?_, ?_, ?_, ?_, ?_⟩
  · exact eval_isSome S _ _
  · exact eval_isSome S _ _
  · exact eval_isSome S _ _
  · exact eval_isSome S _ _
  · exact eval_congr S (oneByOne 1) freeArgs _ _
      ⟨fun i _ => ⟨rfl, rfl⟩, fun j _ => ⟨rfl, rfl⟩⟩

/-- C14: when `eval` returns with `max_iter ≥ 1` (and the rows and columns of the pattern of
`H` lie below `nx`), the returned cost is `x'Hx/2 + g'x` at the returned `x`, and the
returned `x`, `lam_x`, `lam_a` are those of the iterate that the last iteration of the main
loop produced. -/
theorem eval_returns_last_iterate_and_cost (S : Solver) (C : Conic) (A : Args) (r : Result)
    (hmax : 1 ≤ C.max_iter) (hcol : C.H_.ncol ≤ C.nx)
    (hrow : ∀ c k, c < C.H_.ncol → C.H_.colind c ≤ k → k < C.H_.colind (c + 1) →
      C.H_.row k < C.nx)
    (h : eval S C A = some r) :
    r.f = some (casadi_bilin A.h C.H_ r.x r.x / 2 + casadi_dot C.nx r.x A.g) ∧
    ∃ prev it, main_loop S C A (assemble C A) (C.max_iter.toNat - 1) (seed C A) = some prev ∧
      iteration S C A (assemble C A) prev = some it ∧
      (∀ i, i < C.nx → r.x i = it.xk i ∧ r.lam_x i = it.lam_xk i) ∧
      (∀ j, j < C.na → r.lam_a j = it.lam_ak j) := by
  obtain ⟨n, hn⟩ : ∃ n, C.max_iter.toNat = n + 1 := ⟨C.max_iter.toNat - 1, by omega⟩
  unfold eval at h
  rw [hn] at h
  simp only [Option.map_eq_some'] at h
  obtain ⟨it, hit, rfl⟩ := h
  unfold main_loop at hit
  obtain ⟨prev, hprev, hbody⟩ := forLoopM_succ_eq_some hit
  have hx : ∀ i, i < C.nx → casadi_copy (some it.xk) C.nx fresh i = it.xk i := by
    intro i hi
    rw [casadi_copy_apply, if_pos hi]
    rfl
  refine ⟨?_, prev, it, ?_, hbody, fun i hi => ⟨hx i hi, ?_⟩, fun j hj => ?_⟩
  · simp only
    rw [iteration_fk hbody]
    congr 2
    · congr 1
      exact (casadi_bilin_congr A.h C.H_ _ _ _ _
        (fun c k hc hk1 hk2 => hx _ (hrow c k hc hk1 hk2))
        (fun c hc => hx c (by omega))).symm
    · exact (casadi_dot_congr C.nx _ _ A.g hx).symm
  · rw [hn]
    exact hprev
  · simp only
    rw [casadi_copy_apply, if_pos hi]
    rfl
  · simp only
    rw [casadi_copy_apply, if_pos hj]
    rfl

/-- C14, on `freeArgs` with `max_iter = 1`. -/
theorem eval_returns_last_iterate_and_cost_witness :
    (1 ≤ (oneByOne 1).max_iter ∧ (oneByOne 1).H_.ncol ≤ (oneByOne 1).nx ∧
      eval solve2 (oneByOne 1) freeArgs = some freeResult) ∧
    freeResult.f = some (casadi_bilin freeArgs.h (oneByOne 1).H_ freeResult.x freeResult.x / 2
      + casadi_dot (oneByOne 1).nx freeResult.x freeArgs.g) :=
  ⟨⟨by decide!, by decide!, free_eval⟩,
   (eval_returns_last_iterate_and_cost solve2 (oneByOne 1) freeArgs freeResult (by decide!)
      (by decide!)
      (by
        intro c k hc h1 h2
        have hc0 : c = 0 := by
          have : c < 1 := hc
          omega
        subst hc0
        have hk : k = 0 := by
          have : k < 1 := h2
          omega
        subst hk
        decide!)
      free_eval).1⟩

/-- C20 fails on the code: `gk` is carved with `nx_` entries, so with the sizes `moreCons`
(`nx = 1`, `na = 2`) its slice has 1 entry while `eval` uses 2 and the second is the first
entry of `step`; and with the sizes `moreVars` (`nx = 2`, `na = 1`) the carved length 48
exceeds the persistent length 47 that `init` requests. -/
theorem work_vector_layout_mismatch :
    ((carve moreCons).step - (carve moreCons).gk, moreCons.na) = (1, 2) ∧
    (carve moreCons).gk + 1 = (carve moreCons).step ∧
    ((carve moreVars).w, persistent_w moreVars) = (48, 47) := by
  decide

/-- C16: on a pattern whose column offsets do not decrease and whose rows increase within
each column, `casadi_set_sub` stores `y`, in the order of storage (column-major), in the
entries of the columns `[cbeg, cend)` whose row lies in `[rbeg, rend)`: such an entry `k`
receives `y[blockRank k]`, the number of entries of the block stored before it; every other
entry is kept. On a KKT pattern `[[H, A'], [A, 0]]` the three calls of `eval` therefore
store the nonzeros of `H` at the top-left entries, those of `A` at the bottom-left entries
and those of the transpose computed by `casadi_trans` at the top-right entries, and no
entry is stored in the bottom-right block. -/
theorem set_sub_and_kkt_assembly (y x : Vec) (sp : Sparsity) (rbeg rend cbeg cend : ℕ)
    (hc : cbeg ≤ cend)
    (hmono : ∀ c, cbeg ≤ c → c < cend → sp.colind c ≤ sp.colind (c + 1))
    (hsorted : ∀ c, cbeg ≤ c → c < cend → ∀ k k1, sp.colind c ≤ k → k < k1 →
      k1 < sp.colind (c + 1) → sp.row k < sp.row k1)
    (C : Conic) (A : Args) (hk : IsKktPattern C) :
    ((∀ c k, cbeg ≤ c → c < cend → sp.colind c ≤ k → k < sp.colind (c + 1) →
        rbeg ≤ sp.row k → sp.row k < rend →
        casadi_set_sub y x sp rbeg rend cbeg cend k = y (blockRank sp rbeg rend cbeg k)) ∧
      (∀ k, ¬ (∃ c, cbeg ≤ c ∧ c < cend ∧ sp.colind c ≤ k ∧ k < sp.colind (c + 1) ∧
          rbeg ≤ sp.row k ∧ sp.row k < rend) →
        casadi_set_sub y x sp rbeg rend cbeg cend k = x k)) ∧
    ((∀ c k, c < C.nx → C.H_.colind c ≤ k → k < C.H_.colind (c + 1) →
        C.kkt_.colind c ≤ C.A_.colind c + k ∧ C.A_.colind c + k < C.kkt_.colind (c + 1) ∧
        C.kkt_.row (C.A_.colind c + k) = C.H_.row k ∧
        assemble C A (C.A_.colind c + k) = A.h k) ∧
      (∀ c k, c < C.nx → C.A_.colind c ≤ k → k < C.A_.colind (c + 1) →
        C.kkt_.colind c ≤ C.H_.colind (c + 1) + k ∧
        C.H_.colind (c + 1) + k < C.kkt_.colind (c + 1) ∧
        C.kkt_.row (C.H_.colind (c + 1) + k) = C.nx + C.A_.row k ∧
        assemble C A (C.H_.colind (c + 1) + k) = A.a k) ∧
      (∀ j k, j < C.na → C.AT_.colind j ≤ k → k < C.AT_.colind (j + 1) →
        C.kkt_.colind (C.nx + j) ≤ C.H_.colind C.nx + C.A_.colind C.nx + k ∧
        C.H_.colind C.nx + C.A_.colind C.nx + k < C.kkt_.colind (C.nx + (j + 1)) ∧
        C.kkt_.row (C.H_.colind C.nx + C.A_.colind C.nx + k) = C.AT_.row k ∧
        assemble C A (C.H_.colind C.nx + C.A_.colind C.nx + k)
          = casadi_trans A.a C.A_ fresh C.AT_ k) ∧
      (∀ j p, j < C.na → C.kkt_.colind (C.nx + j) ≤ p → p < C.kkt_.colind (C.nx + (j + 1)) →
        C.kkt_.row p < C.nx)) := by
  refine ⟨⟨fun c k c1 c2 k1 k2 r1 r2 => ?_, fun k hk1 => ?_⟩,
    fun c k hcx k1 k2 => ?_, fun c k hcx k1 k2 => ?_, fun j k hj k1 k2 => ?_,
    fun j p hj p1 p2 => ?_⟩
  · have e1 := colind_le_from sp.colind cbeg cend hmono cbeg c (le_refl _) c1 (by omega)
    have e2 := colind_le_from sp.colind cbeg cend hmono (c + 1) cend (by omega) (by omega)
      (le_refl _)
    rw [set_sub_spec y x sp rbeg rend cbeg cend hc hmono hsorted k,
      if_pos ⟨by omega, by omega, r1, r2⟩]
  · rw [set_sub_spec y x sp rbeg rend cbeg cend hc hmono hsorted k, if_neg]
    intro hin
    have hlen : cbeg + (cend - cbeg) = cend := by omega
    obtain ⟨c, c1, c2, c3, c4⟩ := col_of_index sp.colind cbeg (cend - cbeg) k hin.1
      (by rw [hlen]; exact hin.2.1)
    exact hk1 ⟨c, c1, by omega, c3, c4, hin.2.2⟩
  · have mA := hk.monoA c hcx
    refine ⟨?_, ?_, hk.rowH c hcx k k1 k2, assemble_H hk A c k hcx k1 k2⟩
    · rw [hk.colx c (by omega)]
      omega
    · rw [hk.colx (c + 1) (by omega)]
      omega
  · have mH := hk.monoH c hcx
    refine ⟨?_, ?_, hk.rowA c hcx k k1 k2, assemble_A hk A c k hcx k1 k2⟩
    · rw [hk.colx c (by omega)]
      omega
    · rw [hk.colx (c + 1) (by omega)]
      omega
  · refine ⟨?_, ?_, hk.rowT j hj k k1 k2, assemble_T hk A j k hj k1 k2⟩
    · rw [hk.cola j (by omega)]
      omega
    · rw [hk.cola (j + 1) (by omega)]
      omega
  · rw [hk.cola j (by omega)] at p1
    rw [hk.cola (j + 1) (by omega)] at p2
    rw [kkt_rowT hk j hj p p1 p2]
    exact hk.boundT j hj _ (by omega) (by omega)

/-- C16, on the pattern of `oneByOne` and the problem `freeArgs`: the call that stores `A`
writes entry 1 only, and the assembled KKT values are `h[0]`, `a[0]` and the transposed
`a[0]`. -/
theorem set_sub_and_kkt_assembly_witness :
    (0 ≤ 1 ∧ IsKktPattern (oneByOne 1)) ∧
    casadi_set_sub (ofList [7]) fresh (oneByOne 1).kkt_ 1 2 0 1 1 = 7 ∧
    assemble (oneByOne 1) freeArgs ((oneByOne 1).A_.colind 0 + 0) = freeArgs.h 0 := by
  have hm : ∀ c, 0 ≤ c → c < 1 →
      (oneByOne 1).kkt_.colind c ≤ (oneByOne 1).kkt_.colind (c + 1) :=
    fun c _ h => kkt_mono oneByOne_isKkt c (by
      have : (oneByOne 1).nx + (oneByOne 1).na = 2 := rfl
      omega)
  have hs : ∀ c, 0 ≤ c → c < 1 → ∀ k k1, (oneByOne 1).kkt_.colind c ≤ k → k < k1 →
      k1 < (oneByOne 1).kkt_.colind (c + 1) →
      (oneByOne 1).kkt_.row k < (oneByOne 1).kkt_.row k1 :=
    fun c _ h => kkt_sorted oneByOne_isKkt c (by
      have : (oneByOne 1).nx + (oneByOne 1).na = 2 := rfl
      omega)
  have key := set_sub_and_kkt_assembly (ofList [7]) fresh (oneByOne 1).kkt_ 1 2 0 1
    (by decide) hm hs (oneByOne 1) freeArgs oneByOne_isKkt
  refine ⟨⟨by decide, oneByOne_isKkt⟩, ?_, (key.2.1 0 0 (by decide) (by decide) (by decide)).2.2.2⟩
  rw [key.1.1 0 1 (by decide) (by decide) (by decide) (by decide) (by decide) (by decide)]
  decide

/-- C17, on the scan `dualIt`: the final `tau = 1/4` is the sign change of the multiplier of
the active variable, which is 0 after the update. -/
theorem sign_change_deactivates_witness :
    (ratio_test (oneByOne 1).nx (oneByOne 1).na freeArgs.bnd dualIt dualStep = some dualResult ∧
      dualIt.lam_xk 0 ≠ 0 ∧ dualResult.w 0 = dualResult.tau) ∧
    dualResult.tau = -dualIt.lam_xk 0 / dualStep.dlam_x 0 ∧
    (take_step (oneByOne 1) freeArgs dualIt dualStep dualResult.tau).lam_xk 0 = 0 :=
  ⟨⟨dual_eval, by decide!, by decide!⟩,
   (sign_change_deactivates (oneByOne 1) freeArgs dualIt dualStep dualResult dual_eval).1 0
     (by decide) (by decide!) (by decide!)⟩

/-- C18, on concrete inputs: the scan `scanBounds` returns, and from `farState` (`tau = 5`)
the step length 2 computed at variable 0 has the divisor 1 and lies in `[0, 5]`. -/
theorem ratio_test_never_raises_witness :
    (ratio_test 2 1 scanBounds scanIt scanStep).isSome = true ∧
    (0 ≤ farState.tau ∧ new_tau_x farBounds farIt farStep 0 farState = some 2) ∧
    divisor_x farIt farStep 0 ≠ 0 ∧ (0 : ℚ) ≤ 2 ∧ 2 ≤ farState.tau :=
  ⟨(ratio_test_never_raises 2 1 scanBounds scanIt scanStep).1,
   ⟨by decide!, far_new_tau⟩,
   (ratio_test_never_raises 1 0 farBounds farIt farStep).2.1 0 farState 2 (by decide!)
     far_new_tau⟩

end ConicAs
